import Mathlib

/-!
# SICP chapter 1 exercises (`src/ch1.cpp`): a shallow embedding and its properties

Conventions of the embedding.

* `std::size_t` is a natural number below `2 ^ 64`; every arithmetic operation the
  source performs on it is followed by `% 2 ^ 64` (`n - 1` is `(n + 2 ^ 64 - 1) % 2 ^ 64`).
* `double` has two embeddings.
  - The exact one takes a `double` as a rational number: decimal literals are the
    rationals they denote (`0.001` is `1 / 1000`), and no rounding, overflow or NaN takes
    place.  It is used for the control flow and the counter of the iterative approximators,
    which do not depend on the arithmetic, and for the runs whose values it shares with the
    machine up to the last digit (`A` on small integers, `approximate_root(1.0, 2.0)`,
    `approximate_cube_root(1.0, 8.0, 0.001)`).  A division by zero is outside it.
  - The machine one, `F64`, is IEEE 754 binary64: finite numbers as multiples of
    `2 ^ (-1074)`, two infinities, NaN, signed zero, every operation rounded to nearest,
    ties to even, and comparisons that are false on NaN.  The functions of the source on
    it are in the namespace `Ieee`; what a statement says about overflow, rounding or a
    call that never returns is stated on it.
* A `while` loop or a self-recursive function takes a fuel argument that bounds the
  number of loop tests (resp. the call depth) and returns `none` when it runs out.
  A statement that the code returns a value is proved as "enough fuel gives `some`".
* The global `std::size_t n_iterations` is passed in and returned explicitly.
-/

namespace Sicp

/-! ## Definitions -/

/-- The source's `template <typename T> T square(T x)`: `x * x`, in whatever multiplication
the type `T` has (`double` is `ℚ` in the rest of this file). -/
def square {T : Type} [Mul T] (x : T) : T := x * x

/-- The source's own `abs(double)`: `x < 0 ? -x : x`. -/
def abs (x : ℚ) : ℚ := if x < 0 then -x else x

/-- The source's `is_good_enough(x, threshold)`: `x < threshold`. -/
def is_good_enough (x threshold : ℚ) : Bool := decide (x < threshold)

/-- The source's `improve_guess(y, x)`: `(y + x / y) * 0.5`. -/
def improve_guess (y x : ℚ) : ℚ := (y + x / y) * (1 / 2)

/-- The self-recursive `approximate_root(guess, x)`, with its fixed threshold `0.001`.
The fuel bounds the depth of the chain of calls. -/
def approximate_root : Nat → ℚ → ℚ → Option ℚ
  | 0, _, _ => none
  | fuel + 1, guess, x =>
    if is_good_enough (abs (square guess - x)) (1 / 1000) then some guess
    else approximate_root fuel (improve_guess guess x) x

/-- The `while` loop of `approximate_root_ez`, started in the state `approx`,
`n_iterations`.  Each unit of fuel pays for one evaluation of the loop test. -/
def approximate_root_ez_loop : Nat → ℚ → ℚ → ℚ → Nat → Option (ℚ × Nat)
  | 0, _, _, _, _ => none
  | fuel + 1, x, threshold, approx, n_iterations =>
    if |approx * approx - x| > threshold then
      let approx_old := approx
      let approx_new := 1 / 2 * (approx + x / approx)
      let n_new := (n_iterations + 1) % 2 ^ 64
      if approx_old = approx_new then some (approx_new, n_new)
      else approximate_root_ez_loop fuel x threshold approx_new n_new
    else some (approx, n_iterations)

/-- The source's `approximate_root_ez(guess, x, threshold)`, run with the global counter at
`n_iterations`; the result is the returned value and the counter after the call. -/
def approximate_root_ez (fuel : Nat) (guess x threshold : ℚ) (n_iterations : Nat) :
    Option (ℚ × Nat) :=
  approximate_root_ez_loop fuel x threshold guess n_iterations

/-- The `while` loop of `approximate_cube_root`; `std::pow(approx, k)` is `approx ^ k`. -/
def approximate_cube_root_loop : Nat → ℚ → ℚ → ℚ → Nat → Option (ℚ × Nat)
  | 0, _, _, _, _ => none
  | fuel + 1, x, threshold, approx, n_iterations =>
    if |approx ^ 3 - x| > threshold then
      let approx_old := approx
      let approx_new := (x / approx ^ 2 + 2 * approx) / 3
      let n_new := (n_iterations + 1) % 2 ^ 64
      if approx_old = approx_new then some (approx_new, n_new)
      else approximate_cube_root_loop fuel x threshold approx_new n_new
    else some (approx, n_iterations)

/-- The source's `approximate_cube_root(guess, x, threshold)`, run with the global counter at
`n_iterations`. -/
def approximate_cube_root (fuel : Nat) (guess x threshold : ℚ) (n_iterations : Nat) :
    Option (ℚ × Nat) :=
  approximate_cube_root_loop fuel x threshold guess n_iterations

/-- Number of times the body of the loop of `approximate_root_ez` is executed (the number of
improvement steps of a call): the control flow of `approximate_root_ez_loop`, counting. -/
def approximate_root_ez_steps : Nat → ℚ → ℚ → ℚ → Option Nat
  | 0, _, _, _ => none
  | fuel + 1, x, threshold, approx =>
    if |approx * approx - x| > threshold then
      let approx_new := 1 / 2 * (approx + x / approx)
      if approx = approx_new then some 1
      else (approximate_root_ez_steps fuel x threshold approx_new).map (· + 1)
    else some 0

/-- Number of times the body of the loop of `approximate_cube_root` is executed. -/
def approximate_cube_root_steps : Nat → ℚ → ℚ → ℚ → Option Nat
  | 0, _, _, _ => none
  | fuel + 1, x, threshold, approx =>
    if |approx ^ 3 - x| > threshold then
      let approx_new := (x / approx ^ 2 + 2 * approx) / 3
      if approx = approx_new then some 1
      else (approximate_cube_root_steps fuel x threshold approx_new).map (· + 1)
    else some 0

/-- The source's `factorial_recursive(n)` on `std::size_t`.  The fuel bounds the depth of the
chain of calls. -/
def factorial_recursive : Nat → Nat → Option Nat
  | 0, _ => none
  | fuel + 1, n =>
    if n = 1 then some 1
    else (factorial_recursive fuel ((n + 2 ^ 64 - 1) % 2 ^ 64)).map (fun r => n * r % 2 ^ 64)

/-- The `while (it <= n)` loop of `factorial_iterative`, in the state `it`, `result`. -/
def factorial_iterative_loop : Nat → Nat → Nat → Nat → Option Nat
  | 0, _, _, _ => none
  | fuel + 1, n, it, result =>
    if it ≤ n then factorial_iterative_loop fuel n ((it + 1) % 2 ^ 64) (result * it % 2 ^ 64)
    else some result

/-- The source's `factorial_iterative(n)`: the loop started at `it = 2`, `result = 1`. -/
def factorial_iterative (fuel n : Nat) : Option Nat :=
  factorial_iterative_loop fuel n 2 1

/-- The source's growth function `A(x, y)` on `double`.  The fuel bounds the depth of the
nested calls; the inner call `A(x, y - 1)` is evaluated first and its value is the second
argument of the outer call. -/
def A : Nat → ℚ → ℚ → Option ℚ
  | 0, _, _ => none
  | fuel + 1, x, y =>
    if y = 0 then some 0
    else if x = 0 then some (2 * y)
    else if y = 1 then some 2
    else (A fuel x (y - 1)).bind (fun inner => A fuel (x - 1) inner)

/-- One call of an iterative root approximator, with its arguments `guess`, `x`, `threshold`. -/
inductive RootCall where
  | ez (guess x threshold : ℚ)
  | cube (guess x threshold : ℚ)

/-- Runs the call with the global counter at `n_iterations`. -/
def RootCall.run (fuel : Nat) : RootCall → Nat → Option (ℚ × Nat)
  | RootCall.ez guess x threshold, n_iterations =>
    approximate_root_ez fuel guess x threshold n_iterations
  | RootCall.cube guess x threshold, n_iterations =>
    approximate_cube_root fuel guess x threshold n_iterations

/-- Number of improvement steps the call performs. -/
def RootCall.steps (fuel : Nat) : RootCall → Option Nat
  | RootCall.ez guess x threshold => approximate_root_ez_steps fuel x threshold guess
  | RootCall.cube guess x threshold => approximate_cube_root_steps fuel x threshold guess

/-- Runs a sequence of calls one after the other, the counter left by a call being the counter
the next one starts from; the result is the counter after the last call. -/
def run_calls (fuel : Nat) : List RootCall → Nat → Option Nat
  | [], n_iterations => some n_iterations
  | call :: rest, n_iterations =>
    (call.run fuel n_iterations).bind (fun p => run_calls fuel rest p.2)

/-- Sum of the numbers of improvement steps of a sequence of calls. -/
def total_steps (fuel : Nat) : List RootCall → Option Nat
  | [] => some 0
  | call :: rest => (call.steps fuel).bind (fun k => (total_steps fuel rest).map (k + ·))

/-! ### IEEE 754 binary64

The definitions above take `double` as an exact rational.  The definitions below take it as the
machine type: IEEE 754 binary64 with round-to-nearest, ties-to-even, every operation rounded
on its own. -/

/-- A `double`.  `fin neg mag` is the finite number `(-1) ^ neg * mag * 2 ^ (-1074)`: every
finite binary64 number is a multiple of `2 ^ (-1074)`; the operations below only produce
magnitudes with at most 53 significant bits, below `2 ^ 2098` (that is, values below
`2 ^ 1024`).  `inf neg` is an infinity and `nan` a NaN. -/
inductive F64 where
  | fin (neg : Bool) (mag : Nat)
  | inf (neg : Bool)
  | nan
  deriving DecidableEq

/-- Nearest natural number to `n / d`, a tie going to the even one. -/
def F64.rne (n d : Nat) : Nat :=
  if 2 * (n % d) < d then n / d
  else if d < 2 * (n % d) then n / d + 1
  else if n / d % 2 = 0 then n / d
  else n / d + 1

/-- Number of binary digits of `n` (`0` for `n = 0`), for `n < 2 ^ 4096`: a binary search for
the largest `b` with `2 ^ b ≤ n`. -/
def F64.bits (n : Nat) : Nat :=
  if n = 0 then 0
  else [2048, 1024, 512, 256, 128, 64, 32, 16, 8, 4, 2, 1].foldl
    (fun b k => if 2 ^ (b + k) ≤ n then b + k else b) 0 + 1

/-- Rounds the magnitude `n / d` (in units of `2 ^ (-1074)`) to 53 significant binary digits,
to nearest, ties to even.  Below `2 ^ 53` units (subnormal numbers and the first normal
binade) the spacing is one unit. -/
def F64.roundMag (n d : Nat) : Nat :=
  F64.rne n (d * 2 ^ (F64.bits (n / d) - 53)) * 2 ^ (F64.bits (n / d) - 53)

/-- The `double` nearest to `(-1) ^ neg * (n / d) * 2 ^ (-1074)`; a rounded magnitude of
`2 ^ 1024` or more overflows to infinity. -/
def F64.mk (neg : Bool) (n d : Nat) : F64 :=
  if F64.roundMag n d < 2 ^ 2098 then F64.fin neg (F64.roundMag n d) else F64.inf neg

/-- Conversion of a natural number (an integer literal or value) to `double`. -/
def F64.ofNat (n : Nat) : F64 := F64.mk false (n * 2 ^ 1074) 1

/-- The `double` of the decimal literal whose value is `n / d`. -/
def F64.ofRat (n d : Nat) : F64 := F64.mk false (n * 2 ^ 1074) d

/-- Unary minus. -/
def F64.neg : F64 → F64
  | F64.fin s m => F64.fin (!s) m
  | F64.inf s => F64.inf (!s)
  | F64.nan => F64.nan

/-- Addition on `double`. -/
def F64.add : F64 → F64 → F64
  | F64.nan, _ => F64.nan
  | _, F64.nan => F64.nan
  | F64.inf a, F64.inf b => if a = b then F64.inf a else F64.nan
  | F64.inf a, F64.fin _ _ => F64.inf a
  | F64.fin _ _, F64.inf b => F64.inf b
  | F64.fin a m, F64.fin b k =>
    if a = b then F64.mk a (m + k) 1
    else if k < m then F64.mk a (m - k) 1
    else if m < k then F64.mk b (k - m) 1
    else F64.fin false 0

/-- Subtraction on `double`. -/
def F64.sub (x y : F64) : F64 := F64.add x (F64.neg y)

/-- Multiplication on `double`. -/
def F64.mul : F64 → F64 → F64
  | F64.nan, _ => F64.nan
  | _, F64.nan => F64.nan
  | F64.inf a, F64.inf b => F64.inf (xor a b)
  | F64.inf a, F64.fin b k => if k = 0 then F64.nan else F64.inf (xor a b)
  | F64.fin a m, F64.inf b => if m = 0 then F64.nan else F64.inf (xor a b)
  | F64.fin a m, F64.fin b k => F64.mk (xor a b) (m * k) (2 ^ 1074)

/-- Division on `double`. -/
def F64.div : F64 → F64 → F64
  | F64.nan, _ => F64.nan
  | _, F64.nan => F64.nan
  | F64.inf _, F64.inf _ => F64.nan
  | F64.inf a, F64.fin b _ => F64.inf (xor a b)
  | F64.fin a _, F64.inf b => F64.fin (xor a b) 0
  | F64.fin a m, F64.fin b k =>
    if k = 0 then (if m = 0 then F64.nan else F64.inf (xor a b))
    else F64.mk (xor a b) (m * 2 ^ 1074) k

/-- Signed magnitude of a finite `double`, in units of `2 ^ (-1074)`. -/
def F64.sval (s : Bool) (m : Nat) : Int := if s then -(m : Int) else (m : Int)

/-- The comparison `a < b` on `double`; false when an operand is a NaN. -/
def F64.lt : F64 → F64 → Bool
  | F64.nan, _ => false
  | _, F64.nan => false
  | F64.inf a, F64.inf b => a && !b
  | F64.inf a, F64.fin _ _ => a
  | F64.fin _ _, F64.inf b => !b
  | F64.fin a m, F64.fin b k => decide (F64.sval a m < F64.sval b k)

/-- The comparison `a == b` on `double`; false when an operand is a NaN, true on `0` and
`-0`. -/
def F64.eqb : F64 → F64 → Bool
  | F64.nan, _ => false
  | _, F64.nan => false
  | F64.inf a, F64.inf b => a == b
  | F64.inf _, F64.fin _ _ => false
  | F64.fin _ _, F64.inf _ => false
  | F64.fin a m, F64.fin b k => decide (F64.sval a m = F64.sval b k)

/-- The library's `std::abs(double)`: the sign is cleared. -/
def F64.fabs : F64 → F64
  | F64.fin _ m => F64.fin false m
  | F64.inf _ => F64.inf false
  | F64.nan => F64.nan

/-- The value of a finite `double` as a rational number (`0` on infinities and NaN). -/
def F64.toRat : F64 → ℚ
  | F64.fin s m => (F64.sval s m : ℚ) / 2 ^ 1074
  | _ => 0

instance : Add F64 := ⟨F64.add⟩

instance : Sub F64 := ⟨F64.sub⟩

instance : Mul F64 := ⟨F64.mul⟩

instance : Div F64 := ⟨F64.div⟩

instance : Neg F64 := ⟨F64.neg⟩

/-- The source's own `abs(double)` on binary64: `x < 0 ? -x : x`. -/
def Ieee.abs (x : F64) : F64 := if F64.lt x (F64.ofNat 0) then -x else x

/-- The source's `is_good_enough(x, threshold)` on binary64: `x < threshold`. -/
def Ieee.is_good_enough (x threshold : F64) : Bool := F64.lt x threshold

/-- The source's `improve_guess(y, x)` on binary64: `(y + x / y) * 0.5`. -/
def Ieee.improve_guess (y x : F64) : F64 := (y + x / y) * F64.ofRat 1 2

/-- The self-recursive `approximate_root(guess, x)` on binary64, threshold `0.001`. -/
def Ieee.approximate_root : Nat → F64 → F64 → Option F64
  | 0, _, _ => none
  | fuel + 1, guess, x =>
    if Ieee.is_good_enough (Ieee.abs (square guess - x)) (F64.ofRat 1 1000) then some guess
    else Ieee.approximate_root fuel (Ieee.improve_guess guess x) x

/-- The `while` loop of `approximate_root_ez` on binary64: the test is
`std::abs(approx * approx - x) > threshold`, the guard is `approx_old == approx`. -/
def Ieee.approximate_root_ez_loop : Nat → F64 → F64 → F64 → Nat → Option (F64 × Nat)
  | 0, _, _, _, _ => none
  | fuel + 1, x, threshold, approx, n_iterations =>
    if F64.lt threshold (F64.fabs (approx * approx - x)) then
      let approx_old := approx
      let approx_new := F64.ofRat 1 2 * (approx + x / approx)
      let n_new := (n_iterations + 1) % 2 ^ 64
      if F64.eqb approx_old approx_new then some (approx_new, n_new)
      else Ieee.approximate_root_ez_loop fuel x threshold approx_new n_new
    else some (approx, n_iterations)

/-- The source's `approximate_root_ez(guess, x, threshold)` on binary64, run with the global
counter at `n_iterations`. -/
def Ieee.approximate_root_ez (fuel : Nat) (guess x threshold : F64) (n_iterations : Nat) :
    Option (F64 × Nat) :=
  Ieee.approximate_root_ez_loop fuel x threshold guess n_iterations

/-- The source's growth function `A(x, y)` on binary64.  The fuel bounds the depth of the
nested calls. -/
def Ieee.A : Nat → F64 → F64 → Option F64
  | 0, _, _ => none
  | fuel + 1, x, y =>
    if F64.eqb y (F64.ofNat 0) then some (F64.ofNat 0)
    else if F64.eqb x (F64.ofNat 0) then some (F64.ofNat 2 * y)
    else if F64.eqb y (F64.ofNat 1) then some (F64.ofNat 2)
    else (Ieee.A fuel x (y - F64.ofNat 1)).bind (fun inner => Ieee.A fuel (x - F64.ofNat 1) inner)

/-- The call `A(x, y)` returns `v` on binary64: some depth of nested calls gives the value. -/
def Ieee.A_returns (x y v : F64) : Prop := ∃ fuel, Ieee.A fuel x y = some v

/-- Tower of `n` twos: `2 ^ 2 ^ ... ^ 2` (`power_tower 0 = 1`). -/
def power_tower : Nat → Nat
  | 0 => 1
  | n + 1 => 2 ^ power_tower n

/-! ## Factorial -/

theorem factorial_recursive_spec (fuel : Nat) :
    ∀ n, 1 ≤ n → n < 2 ^ 64 → n ≤ fuel →
      factorial_recursive fuel n = some (n.factorial % 2 ^ 64) := by
  induction fuel with
  | zero => intro n h1 _ h; omega
  | succ f ih =>
    intro n h1 hlt hle
    unfold factorial_recursive
    by_cases hn : n = 1
    · subst hn; simp
    · have hpred : (n + 2 ^ 64 - 1) % 2 ^ 64 = n - 1 := by omega
      rw [if_neg hn, hpred, ih (n - 1) (by omega) (by omega) (by omega)]
      obtain ⟨m, rfl⟩ : ∃ m, n = m + 1 := ⟨n - 1, by omega⟩
      simp only [Nat.add_sub_cancel, Option.map_some', Nat.factorial_succ, Nat.mul_mod_mod]

theorem factorial_iterative_loop_spec (k : Nat) :
    ∀ fuel n it result, it + k = n + 1 → 2 ≤ it → n + 1 < 2 ^ 64 → k + 1 ≤ fuel →
      result < 2 ^ 64 → result = (it - 1).factorial % 2 ^ 64 →
      factorial_iterative_loop fuel n it result = some (n.factorial % 2 ^ 64) := by
  induction k with
  | zero =>
    intro fuel n it result hk _ _ hf _ hres
    obtain ⟨f, rfl⟩ : ∃ f, fuel = f + 1 := ⟨fuel - 1, by omega⟩
    have hit : it - 1 = n := by omega
    unfold factorial_iterative_loop
    rw [if_neg (by omega), hres, hit]
  | succ k ih =>
    intro fuel n it result hk h2 hn hf _ hres
    obtain ⟨f, rfl⟩ : ∃ f, fuel = f + 1 := ⟨fuel - 1, by omega⟩
    unfold factorial_iterative_loop
    have hnext : (it + 1) % 2 ^ 64 = it + 1 := Nat.mod_eq_of_lt (by omega)
    rw [if_pos (by omega), hnext]
    apply ih f n (it + 1) _ (by omega) (by omega) hn (by omega) (Nat.mod_lt _ (by norm_num))
    obtain ⟨m, rfl⟩ : ∃ m, it = m + 1 := ⟨it - 1, by omega⟩
    simp only [Nat.add_sub_cancel] at hres ⊢
    rw [hres, Nat.factorial_succ, Nat.mod_mul_mod, Nat.mul_comm]

theorem factorial_iterative_spec (fuel n : Nat) (h1 : 1 ≤ n) (hlt : n + 1 < 2 ^ 64)
    (hle : n ≤ fuel) : factorial_iterative fuel n = some (n.factorial % 2 ^ 64) := by
  unfold factorial_iterative
  exact factorial_iterative_loop_spec (n - 1) fuel n 2 1 (by omega) (le_refl 2) hlt (by omega)
    (by norm_num) (by simp)

theorem factorial_iterative_loop_size_max (fuel : Nat) :
    ∀ it result, it < 2 ^ 64 → factorial_iterative_loop fuel (2 ^ 64 - 1) it result = none := by
  induction fuel with
  | zero => intro it result _; rfl
  | succ f ih =>
    intro it result hit
    unfold factorial_iterative_loop
    rw [if_pos (by omega)]
    exact ih _ _ (Nat.mod_lt _ (by norm_num))

theorem factorial_iterative_five : factorial_iterative 5 5 = some 120 := by decide

/-- C1: for every `n` with `1 ≤ n ≤ 20`, `factorial_recursive(n)` and `factorial_iterative(n)`
both return, and return the same 64-bit value (any fuel of at least `n` is enough). -/
theorem factorial_recursive_eq_iterative (n fuel : Nat) (h1 : 1 ≤ n) (h20 : n ≤ 20)
    (hfuel : n ≤ fuel) :
    ∃ v, factorial_recursive fuel n = some v ∧ factorial_iterative fuel n = some v :=
  ⟨n.factorial % 2 ^ 64, factorial_recursive_spec fuel n h1 (by omega) hfuel,
    factorial_iterative_spec fuel n h1 (by omega) hfuel⟩

theorem factorial_recursive_eq_iterative_witness :
    1 ≤ 5 ∧ 5 ≤ 20 ∧ 5 ≤ 5 ∧
      ∃ v, factorial_recursive 5 5 = some v ∧ factorial_iterative 5 5 = some v :=
  ⟨by decide, by decide, by decide,
    factorial_recursive_eq_iterative 5 5 (by decide) (by decide) (by decide)⟩

/-- C2: for every `std::size_t` value `n ≥ 1`, `factorial_recursive(n)` returns `n!` reduced
modulo `2 ^ 64` (a call depth of `n` is enough). -/
theorem factorial_recursive_correct (n fuel : Nat) (h1 : 1 ≤ n) (hlt : n < 2 ^ 64)
    (hfuel : n ≤ fuel) : factorial_recursive fuel n = some (n.factorial % 2 ^ 64) :=
  factorial_recursive_spec fuel n h1 hlt hfuel

theorem factorial_recursive_correct_witness :
    1 ≤ 6 ∧ 6 < 2 ^ 64 ∧ 6 ≤ 6 ∧ factorial_recursive 6 6 = some (Nat.factorial 6 % 2 ^ 64) :=
  ⟨by decide, by norm_num, by decide,
    factorial_recursive_correct 6 6 (by decide) (by norm_num) (by decide)⟩

/-- C3: at `n = 2 ^ 64 - 1` (the largest `std::size_t`) the loop of `factorial_iterative` never
exits: the test `it <= n` holds for every `it`, and `++it` wraps around; no amount of fuel
yields a result.  The recursive sibling does return a value at the same input. -/
theorem factorial_iterative_size_max_diverges :
    (∀ fuel, factorial_iterative fuel (2 ^ 64 - 1) = none) ∧
      ∃ v, factorial_recursive (2 ^ 64 - 1) (2 ^ 64 - 1) = some v :=
  ⟨fun fuel => factorial_iterative_loop_size_max fuel 2 1 (by norm_num),
    _, factorial_recursive_spec _ _ (by norm_num) (by norm_num) (le_refl _)⟩

/-! ## The growth function `A` -/

theorem A_succ_fuel (fuel : Nat) :
    ∀ x y v, A fuel x y = some v → A (fuel + 1) x y = some v := by
  induction fuel with
  | zero => intro x y v h; simp [A] at h
  | succ f ih =>
    intro x y v h
    rw [A] at h ⊢
    by_cases hy0 : y = 0
    · rw [if_pos hy0] at h ⊢; exact h
    · rw [if_neg hy0] at h ⊢
      by_cases hx0 : x = 0
      · rw [if_pos hx0] at h ⊢; exact h
      · rw [if_neg hx0] at h ⊢
        by_cases hy1 : y = 1
        · rw [if_pos hy1] at h ⊢; exact h
        · rw [if_neg hy1] at h ⊢
          obtain ⟨inner, hin, hout⟩ := Option.bind_eq_some.mp h
          exact Option.bind_eq_some.mpr ⟨inner, ih _ _ _ hin, ih _ _ _ hout⟩

theorem A_fuel_le {f g : Nat} (hfg : f ≤ g) {x y v : ℚ} (h : A f x y = some v) :
    A g x y = some v := by
  induction hfg with
  | refl => exact h
  | step _ ih => exact A_succ_fuel _ _ _ _ ih

theorem A_rec_step {fuel : Nat} {x y inner v : ℚ} (hy0 : y ≠ 0) (hx0 : x ≠ 0) (hy1 : y ≠ 1)
    (hin : A fuel x (y - 1) = some inner) (hout : A fuel (x - 1) inner = some v) :
    A (fuel + 1) x y = some v := by
  rw [A, if_neg hy0, if_neg hx0, if_neg hy1]
  exact Option.bind_eq_some.mpr ⟨inner, hin, hout⟩

theorem A_one_pow (n : ℕ) : A (n + 1) 1 (n + 1) = some (2 ^ (n + 1)) := by
  induction n with
  | zero => simp [A]
  | succ n ih =>
    have hy0 : ((n + 1 : ℕ) : ℚ) + 1 ≠ 0 := by positivity
    have hy1 : ((n + 1 : ℕ) : ℚ) + 1 ≠ 1 := by
      have : (0 : ℚ) < ((n + 1 : ℕ) : ℚ) := by positivity
      linarith
    refine A_rec_step hy0 one_ne_zero hy1 (by simpa using ih) ?_
    have hp : (2 : ℚ) ^ (n + 1) ≠ 0 := by positivity
    rw [A, if_neg hp]
    simp [pow_succ, mul_comm]

theorem A_rec_eval {fuel f g : Nat} {x y x1 y1 inner v : ℚ} (hy : y - 1 = y1)
    (hx : x - 1 = x1) (hy0 : y ≠ 0) (hx0 : x ≠ 0) (hy1 : y ≠ 1) (hf : f ≤ fuel) (hg : g ≤ fuel)
    (hin : A f x y1 = some inner) (hout : A g x1 inner = some v) :
    A (fuel + 1) x y = some v := by
  subst hy hx
  exact A_rec_step hy0 hx0 hy1 (A_fuel_le hf hin) (A_fuel_le hg hout)

/-- C4: the growth function evaluates to `A(1, 10) = 1024`, `A(2, 4) = 65536` and
`A(3, 3) = 65536` (with call depths 10, 17 and 18). -/
theorem A_documented_values :
    A 10 1 10 = some 1024 ∧ A 17 2 4 = some 65536 ∧ A 18 3 3 = some 65536 := by
  have h1_2 : A 2 1 2 = some 4 := by have h := A_one_pow 1; norm_num at h; exact h
  have h1_4 : A 4 1 4 = some 16 := by have h := A_one_pow 3; norm_num at h; exact h
  have h1_10 : A 10 1 10 = some 1024 := by have h := A_one_pow 9; norm_num at h; exact h
  have h1_16 : A 16 1 16 = some 65536 := by have h := A_one_pow 15; norm_num at h; exact h
  have h2_1 : A 1 2 1 = some 2 := by norm_num [A]
  have h3_1 : A 1 3 1 = some 2 := by norm_num [A]
  have h2_2 : A 3 2 2 = some 4 :=
    A_rec_eval (by norm_num) (by norm_num) (by norm_num) (by norm_num) (by norm_num)
      (by decide) (le_refl 2) h2_1 h1_2
  have h2_3 : A 5 2 3 = some 16 :=
    A_rec_eval (by norm_num) (by norm_num) (by norm_num) (by norm_num) (by norm_num)
      (by decide) (le_refl 4) h2_2 h1_4
  have h2_4 : A 17 2 4 = some 65536 :=
    A_rec_eval (by norm_num) (by norm_num) (by norm_num) (by norm_num) (by norm_num)
      (by decide) (le_refl 16) h2_3 h1_16
  have h3_2 : A 4 3 2 = some 4 :=
    A_rec_eval (by norm_num) (by norm_num) (by norm_num) (by norm_num) (by norm_num)
      (by decide) (le_refl 3) h3_1 h2_2
  have h3_3 : A 18 3 3 = some 65536 :=
    A_rec_eval (by norm_num) (by norm_num) (by norm_num) (by norm_num) (by norm_num)
      (by decide) (le_refl 17) h3_2 h2_4
  exact ⟨h1_10, h2_4, h3_3⟩

/-! ## Square roots by Newton's method -/

theorem abs_ite (q : ℚ) : |q| = if q < 0 then -q else q := by
  split_ifs with h
  · exact abs_of_neg h
  · exact abs_of_nonneg (not_lt.mp h)

/-- C7: `approximate_root(1.0, 2.0)` terminates: with a call depth of four or more it returns
`577 / 408`, reached by the three improvement steps `1 → 3/2 → 17/12 → 577/408` (a depth of
three is not enough); the result `r` has `|r * r - 2| < 0.001` and `|r - 1.41421| < 0.00001`. -/
theorem approximate_root_one_two :
    (∀ k, approximate_root (k + 4) 1 2 = some (577 / 408)) ∧
    approximate_root 3 1 2 = none ∧
    improve_guess 1 2 = 3 / 2 ∧ improve_guess (3 / 2) 2 = 17 / 12 ∧
    improve_guess (17 / 12) 2 = 577 / 408 ∧
    |(577 / 408 : ℚ) * (577 / 408) - 2| < 1 / 1000 ∧
    |(577 / 408 : ℚ) - 141421 / 100000| < 1 / 100000 := by
  refine ⟨fun k => ?_, ?_, ?_, ?_, ?_, ?_, ?_⟩
  · norm_num [approximate_root, is_good_enough, abs, square, improve_guess]
  · norm_num [approximate_root, is_good_enough, abs, square, improve_guess]
  · norm_num [improve_guess]
  · norm_num [improve_guess]
  · norm_num [improve_guess]
  · norm_num [abs_ite]
  · norm_num [abs_ite]

/-! ## Cube roots by Newton's method -/

/-- C8: `approximate_cube_root(1.0, 8.0, 0.001)` terminates: with fuel for six or more loop
tests it returns, after exactly five improvement steps `g ↦ (8 / g ^ 2 + 2 * g) / 3` (fuel for
five tests is not enough), a value `r` with `|r ^ 3 - 8| ≤ 0.001` and `|r - 2| < 0.001`. -/
theorem approximate_cube_root_one_eight :
    ∃ r : ℚ, (∀ k, approximate_cube_root (k + 6) 1 8 (1 / 1000) 0 = some (r, 5)) ∧
      approximate_cube_root 5 1 8 (1 / 1000) 0 = none ∧
      approximate_cube_root_steps 6 8 (1 / 1000) 1 = some 5 ∧
      |r ^ 3 - 8| ≤ 1 / 1000 ∧ |r - 2| < 1 / 1000 := by
  refine ⟨553512181559331878657626239587324645011466316388488176884281054887866102 /
    276755411113279254574102308733449275255347294994435514907785022993758075,
    fun k => ?_, ?_, ?_, ?_, ?_⟩
  · norm_num [approximate_cube_root, approximate_cube_root_loop, abs_ite]
  · norm_num [approximate_cube_root, approximate_cube_root_loop, abs_ite]
  · norm_num [approximate_cube_root_steps, abs_ite]
  · norm_num [abs_ite]
  · norm_num [abs_ite]

/-! ## The global iteration counter -/

theorem ez_loop_value_counter_free (fuel : Nat) :
    ∀ (x threshold approx : ℚ) (c1 c2 : Nat),
      (approximate_root_ez_loop fuel x threshold approx c1).map Prod.fst =
        (approximate_root_ez_loop fuel x threshold approx c2).map Prod.fst := by
  induction fuel with
  | zero => intros; rfl
  | succ f ih =>
    intro x threshold approx c1 c2
    simp only [approximate_root_ez_loop]
    split_ifs
    · rfl
    · exact ih _ _ _ _ _
    · rfl

theorem cube_loop_value_counter_free (fuel : Nat) :
    ∀ (x threshold approx : ℚ) (c1 c2 : Nat),
      (approximate_cube_root_loop fuel x threshold approx c1).map Prod.fst =
        (approximate_cube_root_loop fuel x threshold approx c2).map Prod.fst := by
  induction fuel with
  | zero => intros; rfl
  | succ f ih =>
    intro x threshold approx c1 c2
    simp only [approximate_cube_root_loop]
    split_ifs
    · rfl
    · exact ih _ _ _ _ _
    · rfl

theorem bind_map_fst_of_counter_free {run : Nat → Option (ℚ × Nat)}
    (h : ∀ c1 c2, (run c1).map Prod.fst = (run c2).map Prod.fst) (c : Nat) :
    (run c).bind (fun p => (run p.2).map Prod.fst) = (run c).map Prod.fst := by
  cases hrun : run c with
  | none => rfl
  | some p =>
    have := h p.2 c
    rw [hrun] at this
    simpa using this

/-- C9: the value returned by `approximate_root_ez` and by `approximate_cube_root` does not
depend on the global counter: run from counters `c1` and `c2` (same fuel, same arguments) they
either both fail to finish or return the same number; and a second call with the same
arguments, started from the counter the first call left, returns what the first returned.
(`approximate_root` neither reads nor writes the counter.) -/
theorem root_value_independent_of_counter (fuel : Nat) (guess x threshold : ℚ) (c1 c2 : Nat) :
    (approximate_root_ez fuel guess x threshold c1).map Prod.fst =
      (approximate_root_ez fuel guess x threshold c2).map Prod.fst ∧
    (approximate_cube_root fuel guess x threshold c1).map Prod.fst =
      (approximate_cube_root fuel guess x threshold c2).map Prod.fst ∧
    (approximate_root_ez fuel guess x threshold c1).bind
        (fun p => (approximate_root_ez fuel guess x threshold p.2).map Prod.fst) =
      (approximate_root_ez fuel guess x threshold c1).map Prod.fst ∧
    (approximate_cube_root fuel guess x threshold c1).bind
        (fun p => (approximate_cube_root fuel guess x threshold p.2).map Prod.fst) =
      (approximate_cube_root fuel guess x threshold c1).map Prod.fst :=
  ⟨ez_loop_value_counter_free fuel x threshold guess c1 c2,
    cube_loop_value_counter_free fuel x threshold guess c1 c2,
    bind_map_fst_of_counter_free (fun a b => ez_loop_value_counter_free fuel x threshold guess a b)
      c1,
    bind_map_fst_of_counter_free
      (fun a b => cube_loop_value_counter_free fuel x threshold guess a b) c1⟩

theorem counter_add_mod (c k : Nat) : ((c + 1) % 2 ^ 64 + k) % 2 ^ 64 = (c + (k + 1)) % 2 ^ 64 := by
  omega

theorem ez_loop_counter (fuel : Nat) :
    ∀ (x threshold approx : ℚ) (c : Nat), c < 2 ^ 64 →
      (approximate_root_ez_loop fuel x threshold approx c).map Prod.snd =
        (approximate_root_ez_steps fuel x threshold approx).map (fun k => (c + k) % 2 ^ 64) := by
  induction fuel with
  | zero => intros; rfl
  | succ f ih =>
    intro x threshold approx c hc
    simp only [approximate_root_ez_loop, approximate_root_ez_steps]
    split_ifs
    · rfl
    · rw [ih _ _ _ _ (Nat.mod_lt _ (by norm_num)), Option.map_map]
      congr 1
      funext k
      exact counter_add_mod c k
    · simp only [Option.map_some', Nat.add_zero, Nat.mod_eq_of_lt hc]

theorem cube_loop_counter (fuel : Nat) :
    ∀ (x threshold approx : ℚ) (c : Nat), c < 2 ^ 64 →
      (approximate_cube_root_loop fuel x threshold approx c).map Prod.snd =
        (approximate_cube_root_steps fuel x threshold approx).map
          (fun k => (c + k) % 2 ^ 64) := by
  induction fuel with
  | zero => intros; rfl
  | succ f ih =>
    intro x threshold approx c hc
    simp only [approximate_cube_root_loop, approximate_cube_root_steps]
    split_ifs
    · rfl
    · rw [ih _ _ _ _ (Nat.mod_lt _ (by norm_num)), Option.map_map]
      congr 1
      funext k
      exact counter_add_mod c k
    · simp only [Option.map_some', Nat.add_zero, Nat.mod_eq_of_lt hc]

theorem call_counter (fuel : Nat) (call : RootCall) (c : Nat) (hc : c < 2 ^ 64) :
    (call.run fuel c).map Prod.snd = (call.steps fuel).map (fun k => (c + k) % 2 ^ 64) := by
  cases call with
  | ez guess x threshold => exact ez_loop_counter fuel x threshold guess c hc
  | cube guess x threshold => exact cube_loop_counter fuel x threshold guess c hc

theorem run_calls_counter (fuel : Nat) (calls : List RootCall) :
    ∀ c, c < 2 ^ 64 →
      run_calls fuel calls c = (total_steps fuel calls).map (fun k => (c + k) % 2 ^ 64) := by
  induction calls with
  | nil =>
    intro c hc
    simp only [run_calls, total_steps, Option.map_some', Nat.add_zero, Nat.mod_eq_of_lt hc]
  | cons call rest ih =>
    intro c hc
    have hcall := call_counter fuel call c hc
    simp only [run_calls, total_steps]
    cases hrun : call.run fuel c with
    | none =>
      rw [hrun] at hcall
      cases hsteps : call.steps fuel with
      | none => rfl
      | some k => rw [hsteps] at hcall; simp at hcall
    | some p =>
      rw [hrun] at hcall
      cases hsteps : call.steps fuel with
      | none => rw [hsteps] at hcall; simp at hcall
      | some k =>
        rw [hsteps] at hcall
        have hp : p.2 = (c + k) % 2 ^ 64 := by simpa using hcall
        simp only [Option.some_bind, Option.map_map]
        rw [hp, ih _ (Nat.mod_lt _ (by norm_num))]
        congr 1
        funext j
        show ((c + k) % 2 ^ 64 + j) % 2 ^ 64 = (c + (k + j)) % 2 ^ 64
        omega

/-- C10 fails as stated: started with the counter at `2 ^ 64 - 1`, the call
`approximate_root_ez(1, 2, 0.5)` performs one improvement step and leaves the counter at `0`,
which is neither the old value plus one nor at least the old value. -/
theorem counter_wraps_at_size_max :
    approximate_root_ez 2 1 2 (1 / 2) (2 ^ 64 - 1) = some (3 / 2, 0) ∧
    approximate_root_ez_steps 2 2 (1 / 2) 1 = some 1 ∧
    (0 : Nat) ≠ (2 ^ 64 - 1) + 1 ∧ (0 : Nat) < 2 ^ 64 - 1 := by
  refine ⟨?_, ?_, by norm_num, by norm_num⟩
  · norm_num [approximate_root_ez, approximate_root_ez_loop, abs_ite]
  · norm_num [approximate_root_ez_steps, abs_ite]

/-- C10 (amended): the counter is never reset and accumulates modulo `2 ^ 64`: a call of
`approximate_root_ez` or `approximate_cube_root` started with the counter at `c` finishes exactly
when its number of improvement steps `k` is defined, and leaves the counter at
`(c + k) % 2 ^ 64`; a sequence of calls leaves it at `(c + total) % 2 ^ 64`, `total` being the sum
of their step counts; so whenever `c + total < 2 ^ 64` the counter ends at `c + total`, not below
`c`. -/
theorem counter_accumulates_mod (fuel c : Nat) (hc : c < 2 ^ 64) :
    (∀ guess x threshold : ℚ,
      (approximate_root_ez fuel guess x threshold c).map Prod.snd =
        (approximate_root_ez_steps fuel x threshold guess).map (fun k => (c + k) % 2 ^ 64)) ∧
    (∀ guess x threshold : ℚ,
      (approximate_cube_root fuel guess x threshold c).map Prod.snd =
        (approximate_cube_root_steps fuel x threshold guess).map
          (fun k => (c + k) % 2 ^ 64)) ∧
    (∀ calls : List RootCall,
      run_calls fuel calls c = (total_steps fuel calls).map (fun k => (c + k) % 2 ^ 64)) ∧
    (∀ (calls : List RootCall) (total : Nat), total_steps fuel calls = some total →
      c + total < 2 ^ 64 → run_calls fuel calls c = some (c + total) ∧ c ≤ c + total) := by
  refine ⟨fun guess x threshold => ez_loop_counter fuel x threshold guess c hc,
    fun guess x threshold => cube_loop_counter fuel x threshold guess c hc,
    fun calls => run_calls_counter fuel calls c hc, fun calls total htotal hlt => ?_⟩
  rw [run_calls_counter fuel calls c hc, htotal]
  exact ⟨by simp only [Option.map_some', Nat.mod_eq_of_lt hlt], Nat.le_add_right c total⟩

theorem counter_accumulates_mod_witness :
    7 < 2 ^ 64 ∧
    (∀ guess x threshold : ℚ,
      (approximate_root_ez 4 guess x threshold 7).map Prod.snd =
        (approximate_root_ez_steps 4 x threshold guess).map (fun k => (7 + k) % 2 ^ 64)) ∧
    (∀ guess x threshold : ℚ,
      (approximate_cube_root 4 guess x threshold 7).map Prod.snd =
        (approximate_cube_root_steps 4 x threshold guess).map
          (fun k => (7 + k) % 2 ^ 64)) ∧
    (∀ calls : List RootCall,
      run_calls 4 calls 7 = (total_steps 4 calls).map (fun k => (7 + k) % 2 ^ 64)) ∧
    (∀ (calls : List RootCall) (total : Nat), total_steps 4 calls = some total →
      7 + total < 2 ^ 64 → run_calls 4 calls 7 = some (7 + total) ∧ 7 ≤ 7 + total) :=
  ⟨by norm_num, counter_accumulates_mod 4 7 (by norm_num)⟩

/-! ## The fixed-point guard of the iterative approximators -/

theorem factorial_recursive_short_fuel (fuel : Nat) :
    ∀ n, n < 2 ^ 64 → fuel < n → factorial_recursive fuel n = none := by
  induction fuel with
  | zero => intro n _ _; rfl
  | succ f ih =>
    intro n hlt hf
    have hpred : (n + 2 ^ 64 - 1) % 2 ^ 64 = n - 1 := by omega
    rw [factorial_recursive, if_neg (by omega), hpred, ih (n - 1) (by omega) (by omega)]
    rfl

theorem factorial_recursive_zero (fuel : Nat) :
    (2 ^ 64 ≤ fuel → factorial_recursive fuel 0 = some 0) ∧
      (fuel < 2 ^ 64 → factorial_recursive fuel 0 = none) := by
  have hpred : (0 + 2 ^ 64 - 1) % 2 ^ 64 = 2 ^ 64 - 1 := by norm_num
  constructor
  · intro h
    obtain ⟨f, rfl⟩ : ∃ f, fuel = f + 1 := ⟨fuel - 1, by omega⟩
    rw [factorial_recursive, if_neg (by decide), hpred,
      factorial_recursive_spec f (2 ^ 64 - 1) (by norm_num) (by norm_num) (by omega)]
    simp only [Option.map_some', Nat.zero_mul, Nat.zero_mod]
  · intro h
    cases fuel with
    | zero => rfl
    | succ f =>
      rw [factorial_recursive, if_neg (by decide), hpred,
        factorial_recursive_short_fuel f (2 ^ 64 - 1) (by norm_num) (by omega)]
      rfl

/-- C12 fails as stated: the chain of calls started by `factorial_recursive(0)` does reach the
base case: `0 - 1` wraps to `2 ^ 64 - 1`, and with a call depth of `2 ^ 64` the call returns
`0`. -/
theorem factorial_recursive_zero_returns : factorial_recursive (2 ^ 64) 0 = some 0 :=
  (factorial_recursive_zero (2 ^ 64)).1 (le_refl _)

/-- C12 (amended): `factorial_recursive(n)` terminates for every `std::size_t` value `n ≥ 1`,
with a call depth of exactly `n`; for `n = 0` the argument wraps to `2 ^ 64 - 1`, so the chain
of calls reaches the base case only at a depth of `2 ^ 64` (no smaller depth is enough), where
the call returns `0`. -/
theorem factorial_recursive_depth (n fuel : Nat) (hlt : n < 2 ^ 64) :
    (1 ≤ n → n ≤ fuel → factorial_recursive fuel n = some (n.factorial % 2 ^ 64)) ∧
    (1 ≤ n → fuel < n → factorial_recursive fuel n = none) ∧
    (2 ^ 64 ≤ fuel → factorial_recursive fuel 0 = some 0) ∧
    (fuel < 2 ^ 64 → factorial_recursive fuel 0 = none) :=
  ⟨fun h1 hf => factorial_recursive_spec fuel n h1 hlt hf,
    fun _ hf => factorial_recursive_short_fuel fuel n hlt hf,
    (factorial_recursive_zero fuel).1, (factorial_recursive_zero fuel).2⟩

theorem factorial_recursive_depth_witness :
    3 < 2 ^ 64 ∧ factorial_recursive 3 3 = some (Nat.factorial 3 % 2 ^ 64) ∧
      factorial_recursive 2 3 = none ∧ factorial_recursive 5 0 = none :=
  ⟨by norm_num, (factorial_recursive_depth 3 3 (by norm_num)).1 (by decide) (by decide),
    (factorial_recursive_depth 3 2 (by norm_num)).2.1 (by decide) (by decide),
    (factorial_recursive_depth 3 5 (by norm_num)).2.2.2 (by norm_num)⟩

/-- C13: `square(x)` equals `x * x` for every `x` of every type `T` with a multiplication, so
in particular for every `x ≥ 0`. -/
theorem square_eq_mul {T : Type} [Mul T] (x : T) : square x = x * x := rfl

/-- C20: `20` is the overflow boundary of both factorial functions: for `1 ≤ n ≤ 20` they return
the true `n!`, which is below `2 ^ 64`; at `n = 21` they return `21! % 2 ^ 64`, which is not
`21!`. -/
theorem factorial_overflow_boundary (n fuel : Nat) (h1 : 1 ≤ n) (h20 : n ≤ 20) (hf : n ≤ fuel) :
    (factorial_recursive fuel n = some n.factorial ∧
      factorial_iterative fuel n = some n.factorial ∧ n.factorial < 2 ^ 64) ∧
    (21 ≤ fuel → factorial_recursive fuel 21 = some (Nat.factorial 21 % 2 ^ 64) ∧
      factorial_iterative fuel 21 = some (Nat.factorial 21 % 2 ^ 64) ∧
      Nat.factorial 21 % 2 ^ 64 ≠ Nat.factorial 21) := by
  have h20lt : Nat.factorial 20 < 2 ^ 64 := by decide
  have hlt : n.factorial < 2 ^ 64 := lt_of_le_of_lt (Nat.factorial_le h20) h20lt
  refine ⟨⟨?_, ?_, hlt⟩, fun h21 => ⟨?_, ?_, ?_⟩⟩
  · rw [factorial_recursive_spec fuel n h1 (by omega) hf, Nat.mod_eq_of_lt hlt]
  · rw [factorial_iterative_spec fuel n h1 (by omega) hf, Nat.mod_eq_of_lt hlt]
  · exact factorial_recursive_spec fuel 21 (by decide) (by norm_num) h21
  · exact factorial_iterative_spec fuel 21 (by decide) (by norm_num) h21
  · decide

theorem factorial_overflow_boundary_witness :
    1 ≤ 20 ∧ 20 ≤ 20 ∧ 20 ≤ 21 ∧
    (factorial_recursive 21 20 = some (Nat.factorial 20) ∧
      factorial_iterative 21 20 = some (Nat.factorial 20) ∧ Nat.factorial 20 < 2 ^ 64) ∧
    (21 ≤ 21 → factorial_recursive 21 21 = some (Nat.factorial 21 % 2 ^ 64) ∧
      factorial_iterative 21 21 = some (Nat.factorial 21 % 2 ^ 64) ∧
      Nat.factorial 21 % 2 ^ 64 ≠ Nat.factorial 21) :=
  ⟨by decide, by decide, by decide,
    factorial_overflow_boundary 20 21 (by decide) (by decide) (by decide)⟩

set_option exponentiation.threshold 5000

/-! ## Rounding to binary64 -/

theorem F64.bits_search_le (n : Nat) (l : List Nat) :
    ∀ b, 2 ^ b ≤ n → 2 ^ (l.foldl (fun b k => if 2 ^ (b + k) ≤ n then b + k else b) b) ≤ n := by
  induction l with
  | nil => intro b h; exact h
  | cons k l ih =>
    intro b h
    rw [List.foldl_cons]
    split_ifs with hk
    · exact ih _ hk
    · exact ih _ h

theorem F64.two_pow_bits_le (n : Nat) (h : n ≠ 0) : 2 ^ (F64.bits n - 1) ≤ n := by
  unfold F64.bits
  rw [if_neg h, Nat.add_sub_cancel]
  exact F64.bits_search_le n _ 0 (Nat.one_le_iff_ne_zero.mpr h)

theorem F64.bits_le (n j : Nat) (h : n < 2 ^ j) : F64.bits n ≤ j := by
  rcases Nat.eq_zero_or_pos n with h0 | h0
  · subst h0; simp [F64.bits]
  · have h1 := F64.two_pow_bits_le n (by omega)
    have h2 : 2 ^ (F64.bits n - 1) < 2 ^ j := lt_of_le_of_lt h1 h
    have h3 := (Nat.pow_lt_pow_iff_right (by norm_num : 1 < 2)).mp h2
    omega

theorem F64.rne_of_dvd {n d : Nat} (hd : 0 < d) (h : d ∣ n) : F64.rne n d = n / d := by
  unfold F64.rne
  rw [Nat.mod_eq_zero_of_dvd h, if_pos (by omega)]

theorem F64.roundMag_exact {N d : Nat} (hd : 0 < d)
    (h : 2 ^ (F64.bits N - 53) ∣ N) : F64.roundMag (N * d) d = N := by
  unfold F64.roundMag
  rw [Nat.mul_div_cancel _ hd]
  generalize F64.bits N - 53 = s at h ⊢
  obtain ⟨q, rfl⟩ := h
  have hp : 0 < 2 ^ s := by positivity
  have hdvd : d * 2 ^ s ∣ 2 ^ s * q * d := ⟨q, by ring⟩
  rw [F64.rne_of_dvd (Nat.mul_pos hd hp) hdvd]
  have : 2 ^ s * q * d / (d * 2 ^ s) = q := by
    rw [show 2 ^ s * q * d = d * 2 ^ s * q by ring]
    exact Nat.mul_div_cancel_left _ (Nat.mul_pos hd hp)
  rw [this, Nat.mul_comm]

theorem F64.repr_dvd (m k : Nat) (hm : m < 2 ^ 53) :
    2 ^ (F64.bits (m * 2 ^ k) - 53) ∣ m * 2 ^ k := by
  have hb : F64.bits (m * 2 ^ k) ≤ 53 + k := by
    apply F64.bits_le
    rw [pow_add]
    exact Nat.mul_lt_mul_of_pos_right hm (by positivity)
  exact Dvd.dvd.mul_left (pow_dvd_pow 2 (by omega)) m

theorem F64.mk_exact (s : Bool) (m k d : Nat) (hd : 0 < d) (hm : m < 2 ^ 53)
    (hlt : m * 2 ^ k < 2 ^ 2098) : F64.mk s (m * 2 ^ k * d) d = F64.fin s (m * 2 ^ k) := by
  unfold F64.mk
  rw [F64.roundMag_exact hd (F64.repr_dvd m k hm), if_pos hlt]

theorem F64.mk_overflow (s : Bool) (m k d : Nat) (hd : 0 < d) (hm : m < 2 ^ 53)
    (hge : 2 ^ 2098 ≤ m * 2 ^ k) : F64.mk s (m * 2 ^ k * d) d = F64.inf s := by
  unfold F64.mk
  rw [F64.roundMag_exact hd (F64.repr_dvd m k hm), if_neg (by omega)]

theorem F64.int_lt (n : Nat) (h : n < 2 ^ 53) : n * 2 ^ 1074 < 2 ^ 2098 :=
  calc n * 2 ^ 1074 < 2 ^ 53 * 2 ^ 1074 := Nat.mul_lt_mul_of_pos_right h (by positivity)
    _ ≤ 2 ^ 2098 := by rw [← pow_add]; exact Nat.pow_le_pow_right (by norm_num) (by norm_num)

theorem F64.ofNat_eq (n : Nat) (h : n < 2 ^ 53) :
    F64.ofNat n = F64.fin false (n * 2 ^ 1074) := by
  have := F64.mk_exact false n 1074 1 Nat.one_pos h (F64.int_lt n h)
  rw [Nat.mul_one] at this
  exact this

theorem F64.ofNat_two_pow (n : Nat) (h : n ≤ 1023) :
    F64.ofNat (2 ^ n) = F64.fin false (2 ^ (n + 1074)) := by
  have := F64.mk_exact false 1 (n + 1074) 1 Nat.one_pos (by norm_num)
    (by rw [Nat.one_mul]; exact Nat.pow_lt_pow_right (by norm_num) (by omega))
  rw [Nat.mul_one, Nat.one_mul] at this
  unfold F64.ofNat
  rw [← pow_add]
  exact this

/-! ## Integers held in a `double` -/

theorem F64.mul_def (a b : F64) : a * b = F64.mul a b := rfl

theorem F64.sub_def (a b : F64) : a - b = F64.add a (F64.neg b) := rfl

theorem F64.add_def (a b : F64) : a + b = F64.add a b := rfl

theorem F64.div_def (a b : F64) : a / b = F64.div a b := rfl

theorem F64.ofNat_mul_pow (m k : Nat) (hm : m < 2 ^ 53) (h : m * 2 ^ k < 2 ^ 1024) :
    F64.ofNat (m * 2 ^ k) = F64.fin false (m * 2 ^ (k + 1074)) := by
  have hlt : m * 2 ^ (k + 1074) < 2 ^ 2098 := by
    rw [pow_add, ← Nat.mul_assoc]
    calc m * 2 ^ k * 2 ^ 1074 < 2 ^ 1024 * 2 ^ 1074 :=
          Nat.mul_lt_mul_of_pos_right h (by positivity)
      _ = 2 ^ 2098 := by rw [← pow_add]
  have := F64.mk_exact false m (k + 1074) 1 Nat.one_pos hm hlt
  rw [Nat.mul_one] at this
  unfold F64.ofNat
  rw [Nat.mul_assoc, ← pow_add]
  exact this

theorem F64.eqb_fin (a b : Nat) :
    F64.eqb (F64.fin false a) (F64.fin false b) = decide (a = b) := by
  simp [F64.eqb, F64.sval]

theorem F64.eqb_ofNat (a b : Nat) (ha : a < 2 ^ 53) (hb : b < 2 ^ 53) :
    F64.eqb (F64.ofNat a) (F64.ofNat b) = decide (a = b) := by
  rw [F64.ofNat_eq a ha, F64.ofNat_eq b hb, F64.eqb_fin]
  have hp : 0 < 2 ^ 1074 := by positivity
  by_cases h : a = b
  · simp [h]
  · have : a * 2 ^ 1074 ≠ b * 2 ^ 1074 := fun e => h (Nat.eq_of_mul_eq_mul_right hp e)
    simp [h, this]

theorem F64.ofNat_sub_one (n : Nat) (h : n + 1 < 2 ^ 53) :
    F64.ofNat (n + 1) - F64.ofNat 1 = F64.ofNat n := by
  rw [F64.ofNat_eq (n + 1) h, F64.ofNat_eq 1 (by norm_num), F64.ofNat_eq n (by omega),
    F64.sub_def]
  have hp : 0 < 2 ^ 1074 := by positivity
  simp only [F64.neg, F64.add, Bool.not_false, Nat.one_mul]
  rw [if_neg (by decide)]
  rcases Nat.eq_zero_or_pos n with h0 | h0
  · subst h0
    simp
  · have hlt : 2 ^ 1074 < (n + 1) * 2 ^ 1074 := by nlinarith
    rw [if_pos hlt]
    have hsub : (n + 1) * 2 ^ 1074 - 2 ^ 1074 = n * 2 ^ 1074 * 1 := by
      rw [Nat.add_mul, Nat.one_mul, Nat.add_sub_cancel, Nat.mul_one]
    rw [hsub]
    exact F64.mk_exact false n 1074 1 Nat.one_pos (by omega) (F64.int_lt n (by omega))

theorem F64.two_mul_fin (m k : Nat) (hm : m < 2 ^ 53) :
    F64.ofNat 2 * F64.fin false (m * 2 ^ k) =
      if m * 2 ^ (k + 1) < 2 ^ 2098 then F64.fin false (m * 2 ^ (k + 1)) else F64.inf false := by
  rw [F64.ofNat_eq 2 (by norm_num), F64.mul_def]
  simp only [F64.mul, Bool.xor_false]
  have hform : 2 * 2 ^ 1074 * (m * 2 ^ k) = m * 2 ^ (k + 1) * 2 ^ 1074 := by ring
  rw [hform]
  split_ifs with h
  · exact F64.mk_exact false m (k + 1) _ (by positivity) hm h
  · exact F64.mk_overflow false m (k + 1) _ (by positivity) hm (by omega)

theorem F64.two_mul_ofNat (n : Nat) (h : n < 2 ^ 53) :
    F64.ofNat 2 * F64.ofNat n = F64.ofNat (2 * n) := by
  rw [F64.ofNat_eq n h, F64.two_mul_fin n 1074 h]
  have hlt : n * 2 ^ (1074 + 1) < 2 ^ 2098 := by
    calc n * 2 ^ (1074 + 1) < 2 ^ 53 * 2 ^ (1074 + 1) :=
          Nat.mul_lt_mul_of_pos_right h (by positivity)
      _ ≤ 2 ^ 2098 := by rw [← pow_add]; exact Nat.pow_le_pow_right (by norm_num) (by norm_num)
  rw [if_pos hlt]
  have := F64.ofNat_mul_pow n 1 h (by
    calc n * 2 ^ 1 < 2 ^ 53 * 2 ^ 1 := Nat.mul_lt_mul_of_pos_right h (by positivity)
      _ ≤ 2 ^ 1024 := by rw [← pow_add]; exact Nat.pow_le_pow_right (by norm_num) (by norm_num))
  rw [show 2 * n = n * 2 ^ 1 by ring, this, Nat.add_comm 1 1074]

/-! ## The growth function `A` on binary64 -/

theorem Ieee.A_nat (fuel x y : Nat) (hx : x < 2 ^ 53) (hy : y < 2 ^ 53) :
    Ieee.A (fuel + 1) (F64.ofNat x) (F64.ofNat y) =
      if y = 0 then some (F64.ofNat 0)
      else if x = 0 then some (F64.ofNat (2 * y))
      else if y = 1 then some (F64.ofNat 2)
      else (Ieee.A fuel (F64.ofNat x) (F64.ofNat (y - 1))).bind
        (fun inner => Ieee.A fuel (F64.ofNat (x - 1)) inner) := by
  rw [Ieee.A, F64.eqb_ofNat y 0 hy (by norm_num), F64.eqb_ofNat x 0 hx (by norm_num),
    F64.eqb_ofNat y 1 hy (by norm_num), F64.two_mul_ofNat y hy]
  simp only [decide_eq_true_eq]
  by_cases hy0 : y = 0
  · rw [if_pos hy0, if_pos hy0]
  · rw [if_neg hy0, if_neg hy0]
    by_cases hx0 : x = 0
    · rw [if_pos hx0, if_pos hx0]
    · rw [if_neg hx0, if_neg hx0]
      by_cases hy1 : y = 1
      · rw [if_pos hy1, if_pos hy1]
      · rw [if_neg hy1, if_neg hy1]
        obtain ⟨y1, rfl⟩ : ∃ y1, y = y1 + 1 := ⟨y - 1, by omega⟩
        obtain ⟨x1, rfl⟩ : ∃ x1, x = x1 + 1 := ⟨x - 1, by omega⟩
        rw [F64.ofNat_sub_one y1 hy, F64.ofNat_sub_one x1 hx]
        rfl

theorem Ieee.A_fuel_succ (fuel : Nat) :
    ∀ x y v, Ieee.A fuel x y = some v → Ieee.A (fuel + 1) x y = some v := by
  induction fuel with
  | zero => intro x y v h; simp [Ieee.A] at h
  | succ f ih =>
    intro x y v h
    rw [Ieee.A] at h ⊢
    split_ifs at h ⊢ with h1 h2 h3
    · exact h
    · exact h
    · exact h
    · obtain ⟨inner, hin, hout⟩ := Option.bind_eq_some.mp h
      exact Option.bind_eq_some.mpr ⟨inner, ih _ _ _ hin, ih _ _ _ hout⟩

theorem Ieee.A_fuel_mono {f g : Nat} (hfg : f ≤ g) {x y v : F64} (h : Ieee.A f x y = some v) :
    Ieee.A g x y = some v := by
  induction hfg with
  | refl => exact h
  | step _ ih => exact Ieee.A_fuel_succ _ _ _ _ ih

theorem Ieee.A_unique {f g : Nat} {x y v w : F64} (hv : Ieee.A f x y = some v)
    (hw : Ieee.A g x y = some w) : v = w := by
  have h1 := Ieee.A_fuel_mono (le_max_left f g) hv
  have h2 := Ieee.A_fuel_mono (le_max_right f g) hw
  rw [h1] at h2
  exact Option.some.inj h2

theorem Ieee.A_zero_fin (fuel m : Nat) (hm : m ≠ 0) :
    Ieee.A (fuel + 1) (F64.ofNat 0) (F64.fin false m) =
      some (F64.ofNat 2 * F64.fin false m) := by
  rw [Ieee.A, F64.ofNat_eq 0 (by norm_num), F64.eqb_fin, F64.eqb_fin]
  simp [hm]

theorem Ieee.A_one_two_pow (n : Nat) (hn : n + 1 ≤ 1023) :
    Ieee.A (n + 1) (F64.ofNat 1) (F64.ofNat (n + 1)) = some (F64.fin false (2 ^ (n + 1 + 1074))) := by
  have h53 : (1023 : Nat) < 2 ^ 53 := by norm_num
  induction n with
  | zero =>
    rw [Ieee.A_nat 0 1 1 (by norm_num) (by norm_num)]
    rw [if_neg (by decide), if_neg (by decide), if_pos rfl, F64.ofNat_eq 2 (by norm_num)]
    rfl
  | succ n ih =>
    rw [Ieee.A_nat (n + 1) 1 (n + 1 + 1) (by norm_num) (by omega)]
    rw [if_neg (by omega), if_neg (by decide), if_neg (by omega)]
    rw [show n + 1 + 1 - 1 = n + 1 by omega, ih (by omega), Option.some_bind]
    rw [show (1 : Nat) - 1 = 0 by rfl, Ieee.A_zero_fin n _ (by positivity)]
    have := F64.two_mul_fin 1 (n + 1 + 1074) (by norm_num)
    rw [Nat.one_mul, Nat.one_mul] at this
    rw [this, if_pos (Nat.pow_lt_pow_right (by norm_num) (by omega))]

theorem Ieee.A_one_1024 : Ieee.A 1024 (F64.ofNat 1) (F64.ofNat 1024) = some (F64.inf false) := by
  rw [Ieee.A_nat 1023 1 1024 (by norm_num) (by norm_num)]
  rw [if_neg (by decide), if_neg (by decide), if_neg (by decide)]
  rw [show 1024 - 1 = 1022 + 1 by rfl, Ieee.A_one_two_pow 1022 (by norm_num), Option.some_bind]
  rw [show (1 : Nat) - 1 = 0 by rfl, Ieee.A_zero_fin 1022 _ (by positivity)]
  have := F64.two_mul_fin 1 (1022 + 1 + 1074) (by norm_num)
  rw [Nat.one_mul, Nat.one_mul] at this
  rw [this, if_neg (by norm_num)]

theorem Ieee.A_zero_inf (fuel : Nat) :
    Ieee.A (fuel + 1) (F64.ofNat 0) (F64.inf false) = some (F64.inf false) := by
  rw [Ieee.A, F64.ofNat_eq 0 (by norm_num), F64.ofNat_eq 2 (by norm_num), F64.mul_def]
  simp [F64.eqb, F64.mul, F64.sval]

theorem Ieee.A_one_inf (n : Nat) (h1 : 1024 ≤ n) (h2 : n < 2 ^ 53) :
    Ieee.A n (F64.ofNat 1) (F64.ofNat n) = some (F64.inf false) := by
  induction n, h1 using Nat.le_induction with
  | base => exact Ieee.A_one_1024
  | succ n hn ih =>
    rw [Ieee.A_nat n 1 (n + 1) (by norm_num) h2]
    rw [if_neg (by omega), if_neg (by decide), if_neg (by omega)]
    rw [show n + 1 - 1 = n by omega, ih (by omega), Option.some_bind]
    obtain ⟨k, rfl⟩ : ∃ k, n = k + 1 := ⟨n - 1, by omega⟩
    exact Ieee.A_zero_inf k

theorem F64.inf_sub_one : F64.inf false - F64.ofNat 1 = F64.inf false := by
  rw [F64.ofNat_eq 1 (by norm_num), F64.sub_def]
  rfl

theorem Ieee.A_inf_diverges (x : F64) (hx : F64.eqb x (F64.ofNat 0) = false) :
    ∀ fuel, Ieee.A fuel x (F64.inf false) = none := by
  intro fuel
  induction fuel with
  | zero => rfl
  | succ f ih =>
    have h0 : F64.eqb (F64.inf false) (F64.ofNat 0) = false := by
      rw [F64.ofNat_eq 0 (by norm_num)]; rfl
    have h1 : F64.eqb (F64.inf false) (F64.ofNat 1) = false := by
      rw [F64.ofNat_eq 1 (by norm_num)]; rfl
    rw [Ieee.A, h0, hx, h1, F64.inf_sub_one, ih]
    rfl

theorem Ieee.A_two_small :
    Ieee.A 1 (F64.ofNat 2) (F64.ofNat 1) = some (F64.ofNat 2) ∧
    Ieee.A 3 (F64.ofNat 2) (F64.ofNat 2) = some (F64.ofNat 4) ∧
    Ieee.A 5 (F64.ofNat 2) (F64.ofNat 3) = some (F64.ofNat 16) ∧
    Ieee.A 17 (F64.ofNat 2) (F64.ofNat 4) = some (F64.ofNat 65536) ∧
    Ieee.A 18 (F64.ofNat 3) (F64.ofNat 3) = some (F64.ofNat 65536) := by
  refine ⟨by decide, by decide, by decide, by decide, by decide⟩

theorem Ieee.A_two_five :
    Ieee.A 65537 (F64.ofNat 2) (F64.ofNat 5) = some (F64.inf false) := by
  rw [Ieee.A_nat 65536 2 5 (by norm_num) (by norm_num)]
  rw [if_neg (by decide), if_neg (by decide), if_neg (by decide)]
  rw [show 5 - 1 = 4 by rfl, Ieee.A_fuel_mono (by norm_num) Ieee.A_two_small.2.2.2.1,
    Option.some_bind]
  exact Ieee.A_one_inf 65536 (by norm_num) (by norm_num)

theorem Ieee.A_two_diverges (n : Nat) (h1 : 6 ≤ n) (h2 : n < 2 ^ 53) :
    ∀ fuel, Ieee.A fuel (F64.ofNat 2) (F64.ofNat n) = none := by
  have hone : F64.eqb (F64.ofNat 1) (F64.ofNat 0) = false := by
    rw [F64.eqb_ofNat 1 0 (by norm_num) (by norm_num)]; rfl
  induction n, h1 using Nat.le_induction with
  | base =>
    intro fuel
    cases fuel with
    | zero => rfl
    | succ f =>
      rw [Ieee.A_nat f 2 6 (by norm_num) (by norm_num)]
      rw [if_neg (by decide), if_neg (by decide), if_neg (by decide)]
      cases h : Ieee.A f (F64.ofNat 2) (F64.ofNat (6 - 1)) with
      | none => rfl
      | some w =>
        have hw : w = F64.inf false := Ieee.A_unique h Ieee.A_two_five
        rw [Option.some_bind, hw]
        exact Ieee.A_inf_diverges _ hone f
  | succ n hn ih =>
    intro fuel
    cases fuel with
    | zero => rfl
    | succ f =>
      rw [Ieee.A_nat f 2 (n + 1) (by norm_num) h2]
      rw [if_neg (by omega), if_neg (by decide), if_neg (by omega)]
      rw [show n + 1 - 1 = n by omega, ih (by omega) f]
      rfl

theorem Ieee.A_three_four_diverges :
    ∀ fuel, Ieee.A fuel (F64.ofNat 3) (F64.ofNat 4) = none := by
  intro fuel
  cases fuel with
  | zero => rfl
  | succ f =>
    rw [Ieee.A_nat f 3 4 (by norm_num) (by norm_num)]
    rw [if_neg (by decide), if_neg (by decide), if_neg (by decide)]
    cases h : Ieee.A f (F64.ofNat 3) (F64.ofNat (4 - 1)) with
    | none => rfl
    | some w =>
      have hw : w = F64.ofNat 65536 := Ieee.A_unique h Ieee.A_two_small.2.2.2.2
      rw [Option.some_bind, hw]
      exact Ieee.A_two_diverges 65536 (by norm_num) (by norm_num) f

theorem Ieee.A_x_one (fuel x : Nat) (hx : x < 2 ^ 53) :
    Ieee.A (fuel + 1) (F64.ofNat x) (F64.ofNat 1) = some (F64.ofNat 2) := by
  rw [Ieee.A_nat fuel x 1 hx (by norm_num), if_neg (by decide), if_pos rfl]
  split_ifs <;> rfl

theorem Ieee.A_x_two (x : Nat) (hx : x < 2 ^ 53) :
    ∀ fuel, x + 1 ≤ fuel → Ieee.A fuel (F64.ofNat x) (F64.ofNat 2) = some (F64.ofNat 4) := by
  induction x with
  | zero =>
    intro fuel hf
    obtain ⟨f, rfl⟩ : ∃ f, fuel = f + 1 := ⟨fuel - 1, by omega⟩
    rw [Ieee.A_nat f 0 2 (by norm_num) (by norm_num), if_neg (by decide), if_pos rfl]
  | succ x ih =>
    intro fuel hf
    obtain ⟨f, rfl⟩ : ∃ f, fuel = f + 1 := ⟨fuel - 1, by omega⟩
    obtain ⟨g, rfl⟩ : ∃ g, f = g + 1 := ⟨f - 1, by omega⟩
    rw [Ieee.A_nat (g + 1) (x + 1) 2 hx (by norm_num), if_neg (by decide), if_neg (by omega),
      if_neg (by decide), show 2 - 1 = 1 by rfl, Ieee.A_x_one g (x + 1) hx, Option.some_bind,
      show x + 1 - 1 = x by omega]
    exact ih (by omega) (g + 1) (by omega)

theorem Ieee.A_huge_x_diverges :
    ∀ fuel, Ieee.A fuel (F64.ofNat (2 ^ 54)) (F64.ofNat 2) = none := by
  have hsub : F64.ofNat (2 ^ 54) - F64.ofNat 1 = F64.ofNat (2 ^ 54) := by decide
  have h20 : F64.eqb (F64.ofNat 2) (F64.ofNat 0) = false := by decide
  have h21 : F64.eqb (F64.ofNat 2) (F64.ofNat 1) = false := by decide
  have hx0 : F64.eqb (F64.ofNat (2 ^ 54)) (F64.ofNat 0) = false := by decide
  have h2s : F64.ofNat 2 - F64.ofNat 1 = F64.ofNat 1 := by decide
  have h10 : F64.eqb (F64.ofNat 1) (F64.ofNat 0) = false := by decide
  have h11 : F64.eqb (F64.ofNat 1) (F64.ofNat 1) = true := by decide
  intro fuel
  induction fuel with
  | zero => rfl
  | succ f ih =>
    rw [Ieee.A, h20, hx0, h21, hsub, h2s]
    cases f with
    | zero => rfl
    | succ g =>
      have h1 : Ieee.A (g + 1) (F64.ofNat (2 ^ 54)) (F64.ofNat 1) = some (F64.ofNat 2) := by
        rw [Ieee.A, h10, hx0, h11]
        rfl
      rw [show (if false = true then some (F64.ofNat 0)
          else if false = true then some (F64.ofNat 2 * F64.ofNat 2)
          else if false = true then some (F64.ofNat 2)
          else (Ieee.A (g + 1) (F64.ofNat (2 ^ 54)) (F64.ofNat 1)).bind
            fun inner => Ieee.A (g + 1) (F64.ofNat (2 ^ 54)) inner)
          = (Ieee.A (g + 1) (F64.ofNat (2 ^ 54)) (F64.ofNat 1)).bind
            fun inner => Ieee.A (g + 1) (F64.ofNat (2 ^ 54)) inner from rfl]
      rw [h1, Option.some_bind]
      exact ih

theorem Ieee.A_returns_rec {x y : Nat} (hx : x < 2 ^ 53) (hy : y < 2 ^ 53) (hx1 : 1 ≤ x)
    (hy2 : 2 ≤ y) (v : F64) :
    Ieee.A_returns (F64.ofNat x) (F64.ofNat y) v ↔
      ∃ inner, Ieee.A_returns (F64.ofNat x) (F64.ofNat (y - 1)) inner ∧
        Ieee.A_returns (F64.ofNat (x - 1)) inner v := by
  constructor
  · rintro ⟨fuel, h⟩
    cases fuel with
    | zero => simp [Ieee.A] at h
    | succ f =>
      rw [Ieee.A_nat f x y hx hy, if_neg (by omega), if_neg (by omega), if_neg (by omega)] at h
      obtain ⟨inner, hin, hout⟩ := Option.bind_eq_some.mp h
      exact ⟨inner, ⟨f, hin⟩, ⟨f, hout⟩⟩
  · rintro ⟨inner, ⟨f, hin⟩, ⟨g, hout⟩⟩
    refine ⟨max f g + 1, ?_⟩
    rw [Ieee.A_nat _ x y hx hy, if_neg (by omega), if_neg (by omega), if_neg (by omega)]
    exact Option.bind_eq_some.mpr ⟨inner, Ieee.A_fuel_mono (le_max_left f g) hin,
      Ieee.A_fuel_mono (le_max_right f g) hout⟩

/-- C5 fails as stated: `2 ^ 1023` is a non-negative integer held exactly in a `double`, and
`A(0, 2 ^ 1023)` returns `+inf`, not the integer `2 * 2 ^ 1023`; and at the integer
`x = 2 ^ 54` the recursive case does not reach `x - 1`, since `x - 1 == x` there. -/
theorem A_zero_overflows :
    F64.ofNat (2 ^ 1023) = F64.fin false (2 ^ (1023 + 1074)) ∧
    Ieee.A 1 (F64.ofNat 0) (F64.ofNat (2 ^ 1023)) = some (F64.inf false) ∧
    F64.ofNat (2 ^ 54) - F64.ofNat 1 = F64.ofNat (2 ^ 54) := by
  refine ⟨F64.ofNat_two_pow 1023 (le_refl _), ?_, by decide⟩
  rw [F64.ofNat_two_pow 1023 (le_refl _), Ieee.A_zero_fin 0 _ (by positivity)]
  have := F64.two_mul_fin 1 (1023 + 1074) (by norm_num)
  rw [Nat.one_mul, Nat.one_mul] at this
  rw [this, if_neg (by norm_num)]

/-- C5 (amended): on binary64, for non-negative integers `x`, `y` below `2 ^ 53` (where a
`double` holds every integer and `x - 1`, `y - 1`, `2 * y` are exact) `A` follows the four-case
ladder, in order: `A(x, 0) = 0`; `A(0, y) = 2 * y` when `y ≠ 0`; `A(x, 1) = 2` when `x ≠ 0`;
and for `x ≥ 1`, `y ≥ 2` the values `A(x, y)` returns are exactly the values
`A(x - 1, A(x, y - 1))` returns.  For arbitrary `double`s the same ladder holds with `==`,
`2 * y`, `y - 1` and `x - 1` taken in `double` arithmetic. -/
theorem A_ladder_on_integers (x y fuel : Nat) (hx : x < 2 ^ 53) (hy : y < 2 ^ 53) :
    (y = 0 → Ieee.A (fuel + 1) (F64.ofNat x) (F64.ofNat y) = some (F64.ofNat 0)) ∧
    (y ≠ 0 → x = 0 →
      Ieee.A (fuel + 1) (F64.ofNat x) (F64.ofNat y) = some (F64.ofNat (2 * y)) ∧
      F64.ofNat (2 * y) = F64.fin false (2 * y * 2 ^ 1074)) ∧
    (x ≠ 0 → y = 1 → Ieee.A (fuel + 1) (F64.ofNat x) (F64.ofNat y) = some (F64.ofNat 2)) ∧
    (1 ≤ x → 2 ≤ y → ∀ v,
      Ieee.A_returns (F64.ofNat x) (F64.ofNat y) v ↔
        ∃ inner, Ieee.A_returns (F64.ofNat x) (F64.ofNat (y - 1)) inner ∧
          Ieee.A_returns (F64.ofNat (x - 1)) inner v) ∧
    (∀ a b : F64, Ieee.A (fuel + 1) a b =
      if F64.eqb b (F64.ofNat 0) then some (F64.ofNat 0)
      else if F64.eqb a (F64.ofNat 0) then some (F64.ofNat 2 * b)
      else if F64.eqb b (F64.ofNat 1) then some (F64.ofNat 2)
      else (Ieee.A fuel a (b - F64.ofNat 1)).bind
        (fun inner => Ieee.A fuel (a - F64.ofNat 1) inner)) := by
  refine ⟨fun h0 => ?_, fun h0 hx0 => ⟨?_, ?_⟩, fun hx0 h1 => ?_,
    fun hx1 hy2 v => Ieee.A_returns_rec hx hy hx1 hy2 v, fun a b => rfl⟩
  · rw [Ieee.A_nat fuel x y hx hy, if_pos h0]
  · rw [Ieee.A_nat fuel x y hx hy, if_neg h0, if_pos hx0]
  · have h := F64.ofNat_mul_pow y 1 hy (by
      calc y * 2 ^ 1 < 2 ^ 53 * 2 ^ 1 := Nat.mul_lt_mul_of_pos_right hy (by positivity)
        _ ≤ 2 ^ 1024 := by rw [← pow_add]; exact Nat.pow_le_pow_right (by norm_num) (by norm_num))
    have hmag : y * 2 ^ (1 + 1074) = y * 2 ^ 1 * 2 ^ 1074 := by
      rw [pow_add]
      ring
    rw [show 2 * y = y * 2 ^ 1 by ring, h, hmag]
  · rw [Ieee.A_nat fuel x y hx hy, if_neg (by omega), if_neg hx0, if_pos h1]

theorem A_ladder_on_integers_witness :
    Ieee.A (0 + 1) (F64.ofNat 3) (F64.ofNat 0) = some (F64.ofNat 0) ∧
    (Ieee.A (0 + 1) (F64.ofNat 0) (F64.ofNat 5) = some (F64.ofNat (2 * 5)) ∧
      F64.ofNat (2 * 5) = F64.fin false (2 * 5 * 2 ^ 1074)) ∧
    Ieee.A (0 + 1) (F64.ofNat 3) (F64.ofNat 1) = some (F64.ofNat 2) ∧
    (∀ v, Ieee.A_returns (F64.ofNat 2) (F64.ofNat 3) v ↔
      ∃ inner, Ieee.A_returns (F64.ofNat 2) (F64.ofNat (3 - 1)) inner ∧
        Ieee.A_returns (F64.ofNat (2 - 1)) inner v) :=
  ⟨(A_ladder_on_integers 3 0 0 (by norm_num) (by norm_num)).1 rfl,
    (A_ladder_on_integers 0 5 0 (by norm_num) (by norm_num)).2.1 (by decide) rfl,
    (A_ladder_on_integers 3 1 0 (by norm_num) (by norm_num)).2.2.1 (by decide) rfl,
    (A_ladder_on_integers 2 3 0 (by norm_num) (by norm_num)).2.2.2.1 (by decide) (by decide)⟩

theorem F64.ofNat_two_pow_mul (n : Nat) (h : n ≤ 1023) :
    F64.ofNat (2 ^ n) = F64.fin false (2 ^ n * 2 ^ 1074) := by
  rw [F64.ofNat_two_pow n h, pow_add]

theorem Ieee.A_one_range (n fuel : Nat) (hn : 1 ≤ n) (h53 : n < 2 ^ 53) (hf : n ≤ fuel) :
    (n ≤ 1023 → Ieee.A fuel (F64.ofNat 1) (F64.ofNat n) = some (F64.ofNat (2 ^ n))) ∧
    (1024 ≤ n → Ieee.A fuel (F64.ofNat 1) (F64.ofNat n) = some (F64.inf false)) := by
  constructor
  · intro h
    obtain ⟨k, rfl⟩ : ∃ k, n = k + 1 := ⟨n - 1, by omega⟩
    rw [F64.ofNat_two_pow (k + 1) h]
    exact Ieee.A_fuel_mono hf (Ieee.A_one_two_pow k h)
  · intro h
    exact Ieee.A_fuel_mono hf (Ieee.A_one_inf n h h53)

/-- C16 fails as stated: `A(1, 1024)` returns `+inf`, not `2 ^ 1024`. -/
theorem A_one_overflows_at_1024 :
    Ieee.A 1024 (F64.ofNat 1) (F64.ofNat 1024) = some (F64.inf false) :=
  Ieee.A_one_1024

/-- C16 (amended): on binary64, for every integer `n` with `1 ≤ n ≤ 1023`, `A(1, n)` returns
`2 ^ n` exactly (a call depth of `n` is enough), and `A(1, 0) = 0`; for `1024 ≤ n < 2 ^ 53` the
result overflows and `A(1, n)` returns `+inf`.  `A(1, 10) = 1024` is the instance `n = 10`. -/
theorem A_one_eq_two_pow_up_to_1023 (n fuel : Nat) (hn : 1 ≤ n) (h53 : n < 2 ^ 53)
    (hf : n ≤ fuel) :
    (n ≤ 1023 → Ieee.A fuel (F64.ofNat 1) (F64.ofNat n) = some (F64.ofNat (2 ^ n)) ∧
      F64.ofNat (2 ^ n) = F64.fin false (2 ^ n * 2 ^ 1074)) ∧
    (1024 ≤ n → Ieee.A fuel (F64.ofNat 1) (F64.ofNat n) = some (F64.inf false)) ∧
    Ieee.A fuel (F64.ofNat 1) (F64.ofNat 0) = some (F64.ofNat 0) := by
  refine ⟨fun h => ⟨(Ieee.A_one_range n fuel hn h53 hf).1 h, F64.ofNat_two_pow_mul n h⟩,
    (Ieee.A_one_range n fuel hn h53 hf).2, ?_⟩
  obtain ⟨f, rfl⟩ : ∃ f, fuel = f + 1 := ⟨fuel - 1, by omega⟩
  rw [Ieee.A_nat f 1 0 (by norm_num) (by norm_num), if_pos rfl]

theorem A_one_eq_two_pow_up_to_1023_witness :
    1 ≤ 10 ∧ 10 < 2 ^ 53 ∧ 10 ≤ 10 ∧
    (Ieee.A 10 (F64.ofNat 1) (F64.ofNat 10) = some (F64.ofNat (2 ^ 10)) ∧
      F64.ofNat (2 ^ 10) = F64.fin false (2 ^ 10 * 2 ^ 1074)) ∧
    Ieee.A 10 (F64.ofNat 1) (F64.ofNat 0) = some (F64.ofNat 0) :=
  ⟨by decide, by norm_num, by decide,
    (A_one_eq_two_pow_up_to_1023 10 10 (by decide) (by norm_num) (by decide)).1 (by decide),
    (A_one_eq_two_pow_up_to_1023 10 10 (by decide) (by norm_num) (by decide)).2.2⟩

/-- C17 fails as stated: `A(2, 4) = 65536`, but `A(2, 5)` returns `+inf`, not `2 ^ 65536`; and
at the integer `x = 2 ^ 54`, where `x - 1 == x`, the call `A(x, 2)` never returns. -/
theorem A_two_five_overflows :
    Ieee.A 17 (F64.ofNat 2) (F64.ofNat 4) = some (F64.ofNat 65536) ∧
    Ieee.A 65537 (F64.ofNat 2) (F64.ofNat 5) = some (F64.inf false) ∧
    (∀ fuel, Ieee.A fuel (F64.ofNat (2 ^ 54)) (F64.ofNat 2) = none) :=
  ⟨Ieee.A_two_small.2.2.2.1, Ieee.A_two_five, Ieee.A_huge_x_diverges⟩

/-- C17 (amended): on binary64, `A(2, 1) = 2` and for `1 ≤ n ≤ 3`, `A(2, n)` is the tower of `n`
twos and `A(2, n + 1) = 2 ^ A(2, n)` (so `A(2, 4) = 65536`); and for every non-negative integer
`x` below `2 ^ 53`, `A(x, 1) = 2` and `A(x, 2) = 4`. -/
theorem A_two_is_power_tower_up_to_4 (n x : Nat) (hn : 1 ≤ n) (hn3 : n ≤ 3)
    (hx : x < 2 ^ 53) :
    (∀ f, 17 ≤ f →
      Ieee.A f (F64.ofNat 2) (F64.ofNat n) = some (F64.ofNat (power_tower n)) ∧
      Ieee.A f (F64.ofNat 2) (F64.ofNat (n + 1)) = some (F64.ofNat (2 ^ power_tower n))) ∧
    Ieee.A 1 (F64.ofNat 2) (F64.ofNat 1) = some (F64.ofNat 2) ∧
    (∀ f, Ieee.A (f + 1) (F64.ofNat x) (F64.ofNat 1) = some (F64.ofNat 2)) ∧
    (∀ f, x + 1 ≤ f → Ieee.A f (F64.ofNat x) (F64.ofNat 2) = some (F64.ofNat 4)) := by
  refine ⟨fun f hf => ?_, Ieee.A_two_small.1, fun f => Ieee.A_x_one f x hx,
    Ieee.A_x_two x hx⟩
  obtain ⟨h1, h2, h3, h4, _⟩ := Ieee.A_two_small
  interval_cases n
  · exact ⟨Ieee.A_fuel_mono (by omega) h1, Ieee.A_fuel_mono (by omega) h2⟩
  · exact ⟨Ieee.A_fuel_mono (by omega) h2, Ieee.A_fuel_mono (by omega) h3⟩
  · exact ⟨Ieee.A_fuel_mono (by omega) h3, Ieee.A_fuel_mono (by omega) h4⟩

theorem A_two_is_power_tower_up_to_4_witness :
    1 ≤ 3 ∧ 3 ≤ 3 ∧ 5 < 2 ^ 53 ∧
    (∀ f, 17 ≤ f →
      Ieee.A f (F64.ofNat 2) (F64.ofNat 3) = some (F64.ofNat (power_tower 3)) ∧
      Ieee.A f (F64.ofNat 2) (F64.ofNat (3 + 1)) = some (F64.ofNat (2 ^ power_tower 3))) ∧
    Ieee.A 1 (F64.ofNat 2) (F64.ofNat 1) = some (F64.ofNat 2) ∧
    (∀ f, Ieee.A (f + 1) (F64.ofNat 5) (F64.ofNat 1) = some (F64.ofNat 2)) ∧
    (∀ f, 5 + 1 ≤ f → Ieee.A f (F64.ofNat 5) (F64.ofNat 2) = some (F64.ofNat 4)) :=
  ⟨by decide, by decide, by norm_num,
    A_two_is_power_tower_up_to_4 3 5 (by decide) (by decide) (by norm_num)⟩

theorem F64.ofNat_two_mul_exact (y : Nat) (hy : y < 2 ^ 53) :
    F64.ofNat (2 * y) = F64.fin false (2 * y * 2 ^ 1074) := by
  have h := F64.ofNat_mul_pow y 1 hy (by
    calc y * 2 ^ 1 < 2 ^ 53 * 2 ^ 1 := Nat.mul_lt_mul_of_pos_right hy (by positivity)
      _ ≤ 2 ^ 1024 := by rw [← pow_add]; exact Nat.pow_le_pow_right (by norm_num) (by norm_num))
  have hmag : y * 2 ^ (1 + 1074) = y * 2 ^ 1 * 2 ^ 1074 := by
    rw [pow_add]
    ring
  rw [show 2 * y = y * 2 ^ 1 by ring, h, hmag]

/-- C15 fails as stated: `A(3, 4)`, the call of the repository's `main`, never returns on
binary64, and neither does `A(2, 6)`: `A(2, 5)` overflows to `+inf`, and `A(1, +inf)` calls
itself with the same arguments (`inf - 1 == inf`). -/
theorem A_three_four_never_returns :
    (∀ fuel, Ieee.A fuel (F64.ofNat 3) (F64.ofNat 4) = none) ∧
    (∀ fuel, Ieee.A fuel (F64.ofNat 2) (F64.ofNat 6) = none) ∧
    (∀ fuel, Ieee.A fuel (F64.ofNat 1) (F64.inf false) = none) ∧
    F64.inf false - F64.ofNat 1 = F64.inf false :=
  ⟨Ieee.A_three_four_diverges, Ieee.A_two_diverges 6 (le_refl 6) (by norm_num),
    Ieee.A_inf_diverges _ (by rw [F64.eqb_ofNat 1 0 (by norm_num) (by norm_num)]; rfl),
    F64.inf_sub_one⟩

/-- C15 (amended): on binary64 `A` is total, with a natural number as its value, on this
part of the non-negative integers below `2 ^ 53`: `y ≤ 2` (any `x`), `x = 0` (any `y`), `x = 1`
with `y ≤ 1023`, `x = 2` with `y ≤ 4`, and `(3, 3)`: there some call depth, and every larger
one, gives the value, held exactly in the `double`.  Outside it the result can overflow
(`A(1, y)` is `+inf` for `y ≥ 1024`, and so is `A(2, 5)`) and the call can fail to return
(`A(2, y)` for `y ≥ 6`). -/
theorem A_total_on_small_integers (x y : Nat) (hx : x < 2 ^ 53) (hy : y < 2 ^ 53) :
    (y ≤ 2 ∨ x = 0 ∨ (x = 1 ∧ y ≤ 1023) ∨ (x = 2 ∧ y ≤ 4) ∨ (x = 3 ∧ y = 3) →
      ∃ v fuel, (∀ f, fuel ≤ f → Ieee.A f (F64.ofNat x) (F64.ofNat y) = some (F64.ofNat v)) ∧
        F64.ofNat v = F64.fin false (v * 2 ^ 1074)) ∧
    (x = 1 → 1024 ≤ y → ∀ f, y ≤ f →
      Ieee.A f (F64.ofNat x) (F64.ofNat y) = some (F64.inf false)) ∧
    (x = 2 → y = 5 → ∀ f, 65537 ≤ f →
      Ieee.A f (F64.ofNat x) (F64.ofNat y) = some (F64.inf false)) ∧
    (x = 2 → 6 ≤ y → ∀ f, Ieee.A f (F64.ofNat x) (F64.ofNat y) = none) := by
  refine ⟨fun hdom => ?_, ?_, ?_, ?_⟩
  · obtain ⟨s1, s2, s3, s4, s5⟩ := Ieee.A_two_small
    have succ_fuel : ∀ {f : Nat}, 1 ≤ f → ∃ g, f = g + 1 := fun {f} h => ⟨f - 1, by omega⟩
    by_cases hy0 : y = 0
    · refine ⟨0, 1, fun f hf => ?_, F64.ofNat_eq 0 (by norm_num)⟩
      obtain ⟨g, rfl⟩ := succ_fuel hf
      rw [Ieee.A_nat g x y hx hy, if_pos hy0]
    by_cases hx0 : x = 0
    · refine ⟨2 * y, 1, fun f hf => ?_, F64.ofNat_two_mul_exact y hy⟩
      obtain ⟨g, rfl⟩ := succ_fuel hf
      rw [Ieee.A_nat g x y hx hy, if_neg hy0, if_pos hx0]
    by_cases hy1 : y = 1
    · refine ⟨2, 1, fun f hf => ?_, F64.ofNat_eq 2 (by norm_num)⟩
      obtain ⟨g, rfl⟩ := succ_fuel hf
      rw [Ieee.A_nat g x y hx hy, if_neg hy0, if_neg hx0, if_pos hy1]
    by_cases hy2 : y = 2
    · subst hy2
      exact ⟨4, x + 1, fun f hf => Ieee.A_x_two x hx f hf, F64.ofNat_eq 4 (by norm_num)⟩
    rcases hdom with h | h | ⟨h1, h2⟩ | ⟨h1, h2⟩ | ⟨h1, h2⟩
    · omega
    · omega
    · subst h1
      exact ⟨2 ^ y, y, fun f hf => (Ieee.A_one_range y f (by omega) hy hf).1 h2,
        F64.ofNat_two_pow_mul y h2⟩
    · subst h1
      have hy34 : y = 3 ∨ y = 4 := by omega
      rcases hy34 with rfl | rfl
      · exact ⟨16, 5, fun f hf => Ieee.A_fuel_mono hf s3, F64.ofNat_eq 16 (by norm_num)⟩
      · exact ⟨65536, 17, fun f hf => Ieee.A_fuel_mono hf s4, F64.ofNat_eq 65536 (by norm_num)⟩
    · subst h1 h2
      exact ⟨65536, 18, fun f hf => Ieee.A_fuel_mono hf s5, F64.ofNat_eq 65536 (by norm_num)⟩
  · rintro rfl h f hf
    exact (Ieee.A_one_range y f (by omega) hy hf).2 h
  · rintro rfl rfl f hf
    exact Ieee.A_fuel_mono hf Ieee.A_two_five
  · rintro rfl h f
    exact Ieee.A_two_diverges y h hy f

theorem A_total_on_small_integers_witness :
    2 < 2 ^ 53 ∧ 4 < 2 ^ 53 ∧
    (∃ v fuel, (∀ f, fuel ≤ f → Ieee.A f (F64.ofNat 2) (F64.ofNat 4) = some (F64.ofNat v)) ∧
      F64.ofNat v = F64.fin false (v * 2 ^ 1074)) ∧
    (∀ f, Ieee.A f (F64.ofNat 2) (F64.ofNat 7) = none) :=
  ⟨by norm_num, by norm_num,
    (A_total_on_small_integers 2 4 (by norm_num) (by norm_num)).1
      (Or.inr (Or.inr (Or.inr (Or.inl ⟨rfl, le_refl 4⟩)))),
    (A_total_on_small_integers 2 7 (by norm_num) (by norm_num)).2.2.2 rfl (by decide)⟩

/-! ## Square roots on binary64 -/

theorem F64.mul_comm (a b : F64) : a * b = b * a := by
  rw [F64.mul_def, F64.mul_def]
  cases a <;> cases b <;> simp only [F64.mul, Bool.xor_comm, Nat.mul_comm]

theorem F64.lt_asymm (a b : F64) (h : F64.lt a b = true) : F64.lt b a = false := by
  cases a with
  | nan => simp [F64.lt] at h
  | inf s =>
    cases b with
    | nan => simp [F64.lt] at h
    | inf t => cases s <;> cases t <;> simp_all [F64.lt]
    | fin t k => cases s <;> simp_all [F64.lt]
  | fin s m =>
    cases b with
    | nan => simp [F64.lt] at h
    | inf t => cases t <;> simp_all [F64.lt]
    | fin t k =>
      simp only [F64.lt, decide_eq_true_eq, decide_eq_false_iff_not, not_lt] at h ⊢
      exact le_of_lt h

theorem Ieee.lt_abs (v t : F64) : F64.lt (Ieee.abs v) t = F64.lt (F64.fabs v) t := by
  have h0 : F64.ofNat 0 = F64.fin false 0 := by decide
  unfold Ieee.abs
  rw [h0]
  cases v with
  | nan => rfl
  | inf s => cases s <;> rfl
  | fin s m =>
    cases s with
    | false =>
      have : F64.lt (F64.fin false m) (F64.fin false 0) = false := by
        simp [F64.lt, F64.sval]
      rw [this]
      rfl
    | true =>
      by_cases hm : m = 0
      · subst hm
        have : F64.lt (F64.fin true 0) (F64.fin false 0) = false := by
          simp [F64.lt, F64.sval]
        rw [this]
        cases t with
        | nan => rfl
        | inf u => rfl
        | fin u k => simp [F64.lt, F64.fabs, F64.sval]
      · have : F64.lt (F64.fin true m) (F64.fin false 0) = true := by
          simp [F64.lt, F64.sval]
          omega
        rw [this]
        rfl

theorem Ieee.improve_guess_eq (y x : F64) :
    Ieee.improve_guess y x = F64.ofRat 1 2 * (y + x / y) := by
  unfold Ieee.improve_guess
  exact F64.mul_comm _ _

theorem Ieee.ez_loop_succ_fuel (fuel : Nat) :
    ∀ x threshold approx n v,
      Ieee.approximate_root_ez_loop fuel x threshold approx n = some v →
      Ieee.approximate_root_ez_loop (fuel + 1) x threshold approx n = some v := by
  induction fuel with
  | zero => intro x threshold approx n v h; simp [Ieee.approximate_root_ez_loop] at h
  | succ f ih =>
    intro x threshold approx n v h
    rw [Ieee.approximate_root_ez_loop]
    simp only [Ieee.approximate_root_ez_loop] at h
    by_cases h1 : F64.lt threshold (F64.fabs (approx * approx - x)) = true
    · simp only [if_pos h1] at h ⊢
      by_cases h2 : F64.eqb approx (F64.ofRat 1 2 * (approx + x / approx)) = true
      · simp only [if_pos h2] at h ⊢
        exact h
      · simp only [if_neg h2] at h ⊢
        exact ih _ _ _ _ _ h
    · simp only [if_neg h1] at h ⊢
      exact h

theorem Ieee.ez_fuel_le {f g : Nat} (hfg : f ≤ g) {guess x threshold : F64} {n : Nat}
    {v : F64 × Nat} (h : Ieee.approximate_root_ez f guess x threshold n = some v) :
    Ieee.approximate_root_ez g guess x threshold n = some v := by
  induction hfg with
  | refl => exact h
  | step _ ih => exact Ieee.ez_loop_succ_fuel _ _ _ _ _ _ ih

theorem Ieee.root_succ_fuel (fuel : Nat) :
    ∀ guess x v, Ieee.approximate_root fuel guess x = some v →
      Ieee.approximate_root (fuel + 1) guess x = some v := by
  induction fuel with
  | zero => intro guess x v h; simp [Ieee.approximate_root] at h
  | succ f ih =>
    intro guess x v h
    rw [Ieee.approximate_root] at h ⊢
    split_ifs at h ⊢ with h1
    · exact h
    · exact ih _ _ _ h

theorem Ieee.root_fuel_le {f g : Nat} (hfg : f ≤ g) {guess x v : F64}
    (h : Ieee.approximate_root f guess x = some v) :
    Ieee.approximate_root g guess x = some v := by
  induction hfg with
  | refl => exact h
  | step _ ih => exact Ieee.root_succ_fuel _ _ _ _ ih

theorem Ieee.ez_loop_result (fuel : Nat) :
    ∀ x threshold approx n r c,
      Ieee.approximate_root_ez_loop fuel x threshold approx n = some (r, c) →
      F64.lt threshold (F64.fabs (r * r - x)) = false ∨
      ∃ prev, F64.lt threshold (F64.fabs (prev * prev - x)) = true ∧
        r = F64.ofRat 1 2 * (prev + x / prev) ∧ F64.eqb prev r = true := by
  induction fuel with
  | zero => intro x threshold approx n r c h; simp [Ieee.approximate_root_ez_loop] at h
  | succ f ih =>
    intro x threshold approx n r c h
    simp only [Ieee.approximate_root_ez_loop] at h
    by_cases h1 : F64.lt threshold (F64.fabs (approx * approx - x)) = true
    · simp only [if_pos h1] at h
      by_cases h2 : F64.eqb approx (F64.ofRat 1 2 * (approx + x / approx)) = true
      · simp only [if_pos h2, Option.some.injEq, Prod.mk.injEq] at h
        obtain ⟨rfl, _⟩ := h
        exact Or.inr ⟨approx, h1, rfl, h2⟩
      · simp only [if_neg h2] at h
        exact ih _ _ _ _ _ _ h
    · simp only [if_neg h1, Option.some.injEq, Prod.mk.injEq] at h
      obtain ⟨rfl, _⟩ := h
      left
      simpa using h1

theorem Ieee.ez_loop_no_guard {x threshold : F64} (fuel : Nat) :
    ∀ approx n r c,
      Ieee.approximate_root_ez_loop fuel x threshold approx n = some (r, c) →
      (∀ k, k < fuel →
        F64.lt threshold (F64.fabs
          ((fun g => F64.ofRat 1 2 * (g + x / g))^[k] approx *
            (fun g => F64.ofRat 1 2 * (g + x / g))^[k] approx - x)) = true →
        F64.eqb ((fun g => F64.ofRat 1 2 * (g + x / g))^[k] approx)
          ((fun g => F64.ofRat 1 2 * (g + x / g))^[k + 1] approx) = false) →
      F64.lt threshold (F64.fabs (r * r - x)) = false := by
  induction fuel with
  | zero => intro approx n r c h; simp [Ieee.approximate_root_ez_loop] at h
  | succ f ih =>
    intro approx n r c h hno
    simp only [Ieee.approximate_root_ez_loop] at h
    by_cases h1 : F64.lt threshold (F64.fabs (approx * approx - x)) = true
    · have h2 := hno 0 (Nat.succ_pos f) h1
      simp only [Function.iterate_zero, id_eq, Function.iterate_succ, Function.comp_apply] at h2
      have h2n : ¬ F64.eqb approx (F64.ofRat 1 2 * (approx + x / approx)) = true := by
        rw [h2]; decide
      simp only [if_pos h1, if_neg h2n] at h
      refine ih _ _ r c h (fun k hk => ?_)
      have := hno (k + 1) (Nat.succ_lt_succ hk)
      simpa only [Function.iterate_succ, Function.comp_apply] using this
    · simp only [if_neg h1, Option.some.injEq, Prod.mk.injEq] at h
      obtain ⟨rfl, _⟩ := h
      simpa using h1

theorem Ieee.root_eq_ez_loop {x : F64} (fuel : Nat) :
    ∀ approx n,
      (∀ k, k < fuel →
        (F64.lt (F64.fabs ((fun g => Ieee.improve_guess g x)^[k] approx *
            (fun g => Ieee.improve_guess g x)^[k] approx - x)) (F64.ofRat 1 1000) = true ∨
          F64.lt (F64.ofRat 1 1000) (F64.fabs ((fun g => Ieee.improve_guess g x)^[k] approx *
            (fun g => Ieee.improve_guess g x)^[k] approx - x)) = true) ∧
        (F64.lt (F64.ofRat 1 1000) (F64.fabs ((fun g => Ieee.improve_guess g x)^[k] approx *
            (fun g => Ieee.improve_guess g x)^[k] approx - x)) = true →
          F64.eqb ((fun g => Ieee.improve_guess g x)^[k] approx)
            ((fun g => Ieee.improve_guess g x)^[k + 1] approx) = false)) →
      (Ieee.approximate_root_ez_loop fuel x (F64.ofRat 1 1000) approx n).map Prod.fst =
        Ieee.approximate_root fuel approx x := by
  induction fuel with
  | zero => intro approx n _; rfl
  | succ f ih =>
    intro approx n hb
    obtain ⟨hcmp, hfix⟩ := hb 0 (Nat.succ_pos f)
    simp only [Function.iterate_zero, id_eq, Function.iterate_succ, Function.comp_apply]
      at hcmp hfix
    have hgood : Ieee.is_good_enough (Ieee.abs (square approx - x)) (F64.ofRat 1 1000) =
        F64.lt (F64.fabs (approx * approx - x)) (F64.ofRat 1 1000) := by
      unfold Ieee.is_good_enough square
      exact Ieee.lt_abs _ _
    simp only [Ieee.approximate_root_ez_loop, Ieee.approximate_root, hgood]
    by_cases h1 : F64.lt (F64.ofRat 1 1000) (F64.fabs (approx * approx - x)) = true
    · have h2 := hfix h1
      rw [Ieee.improve_guess_eq] at h2
      have h2n : ¬ F64.eqb approx (F64.ofRat 1 2 * (approx + x / approx)) = true := by
        rw [h2]; decide
      have h3 : ¬ F64.lt (F64.fabs (approx * approx - x)) (F64.ofRat 1 1000) = true := by
        rw [F64.lt_asymm _ _ h1]; decide
      simp only [if_pos h1, if_neg h2n, if_neg h3]
      rw [← Ieee.improve_guess_eq]
      refine ih _ _ (fun k hk => ?_)
      have := hb (k + 1) (Nat.succ_lt_succ hk)
      simpa only [Function.iterate_succ, Function.comp_apply] using this
    · have h3 : F64.lt (F64.fabs (approx * approx - x)) (F64.ofRat 1 1000) = true := by
        rcases hcmp with h | h
        · exact h
        · exact absurd h h1
      simp only [if_neg h1, if_pos h3, Option.map_some']

/-- C14 fails as stated: at guess `0.015625` and target `0.001244140625` the computed error
`|guess * guess - x|` equals the threshold `0.001` exactly; the iterative version stops there
(its test is `> threshold`) and returns `0.015625`; the recursive one is not satisfied (its
test is `< 0.001`), improves twice and returns `0.036874343832021`. -/
theorem approximate_root_differs_at_threshold :
    Ieee.approximate_root_ez 1 (F64.ofRat 1 64) (F64.ofRat 1244140625 1000000000000)
      (F64.ofRat 1 1000) 0 = some (F64.ofRat 1 64, 0) ∧
    Ieee.approximate_root 3 (F64.ofRat 1 64) (F64.ofRat 1244140625 1000000000000)
      = some (F64.ofRat 36874343832021 1000000000000000) ∧
    F64.eqb (F64.ofRat 1 64) (F64.ofRat 36874343832021 1000000000000000) = false ∧
    F64.fabs (F64.ofRat 1 64 * F64.ofRat 1 64 - F64.ofRat 1244140625 1000000000000)
      = F64.ofRat 1 1000 := by
  refine ⟨by decide, by decide, by decide, by decide⟩

/-- C14 (amended): on binary64, as long as at every guess visited the computed error
`|guess * guess - x|` is strictly below or strictly above `0.001`, and every improvement step
made changes the guess, the recursive `approximate_root(guess, x)` and the iterative
`approximate_root_ez(guess, x, 0.001)` behave alike: with the same fuel they both run out or
both return the same value, both applying `(guess + x / guess) / 2`. -/
theorem approximate_root_eq_ez_when_strict (fuel : Nat) (guess x : F64) (n : Nat)
    (hb : ∀ k, k < fuel →
      (F64.lt (F64.fabs ((fun g => Ieee.improve_guess g x)^[k] guess *
          (fun g => Ieee.improve_guess g x)^[k] guess - x)) (F64.ofRat 1 1000) = true ∨
        F64.lt (F64.ofRat 1 1000) (F64.fabs ((fun g => Ieee.improve_guess g x)^[k] guess *
          (fun g => Ieee.improve_guess g x)^[k] guess - x)) = true) ∧
      (F64.lt (F64.ofRat 1 1000) (F64.fabs ((fun g => Ieee.improve_guess g x)^[k] guess *
          (fun g => Ieee.improve_guess g x)^[k] guess - x)) = true →
        F64.eqb ((fun g => Ieee.improve_guess g x)^[k] guess)
          ((fun g => Ieee.improve_guess g x)^[k + 1] guess) = false)) :
    (Ieee.approximate_root_ez fuel guess x (F64.ofRat 1 1000) n).map Prod.fst =
      Ieee.approximate_root fuel guess x ∧
    ∀ y : F64, Ieee.improve_guess y x = F64.ofRat 1 2 * (y + x / y) :=
  ⟨Ieee.root_eq_ez_loop fuel guess n hb, fun y => Ieee.improve_guess_eq y x⟩

theorem approximate_root_eq_ez_when_strict_witness :
    (Ieee.approximate_root_ez 4 (F64.ofNat 1) (F64.ofNat 2) (F64.ofRat 1 1000) 0).map Prod.fst =
      Ieee.approximate_root 4 (F64.ofNat 1) (F64.ofNat 2) ∧
    Ieee.approximate_root 4 (F64.ofNat 1) (F64.ofNat 2) =
      some (F64.ofRat 14142156862745097 10000000000000000) := by
  have hb : ∀ k, k < 4 →
      (F64.lt (F64.fabs ((fun g => Ieee.improve_guess g (F64.ofNat 2))^[k] (F64.ofNat 1) *
          (fun g => Ieee.improve_guess g (F64.ofNat 2))^[k] (F64.ofNat 1) - F64.ofNat 2))
          (F64.ofRat 1 1000) = true ∨
        F64.lt (F64.ofRat 1 1000)
          (F64.fabs ((fun g => Ieee.improve_guess g (F64.ofNat 2))^[k] (F64.ofNat 1) *
          (fun g => Ieee.improve_guess g (F64.ofNat 2))^[k] (F64.ofNat 1) - F64.ofNat 2))
          = true) ∧
      (F64.lt (F64.ofRat 1 1000)
          (F64.fabs ((fun g => Ieee.improve_guess g (F64.ofNat 2))^[k] (F64.ofNat 1) *
          (fun g => Ieee.improve_guess g (F64.ofNat 2))^[k] (F64.ofNat 1) - F64.ofNat 2))
          = true →
        F64.eqb ((fun g => Ieee.improve_guess g (F64.ofNat 2))^[k] (F64.ofNat 1))
          ((fun g => Ieee.improve_guess g (F64.ofNat 2))^[k + 1] (F64.ofNat 1)) = false) := by
    intro k hk
    interval_cases k <;> decide
  exact ⟨(approximate_root_eq_ez_when_strict 4 (F64.ofNat 1) (F64.ofNat 2) 0 hb).1, by decide⟩

/-! ## Rounding error of binary64 -/

theorem F64.rne_bounds (n d : Nat) (hd : 0 < d) :
    (n : ℚ) / d - 1 / 2 ≤ F64.rne n d ∧ (F64.rne n d : ℚ) ≤ (n : ℚ) / d + 1 / 2 := by
  have hdq : (0 : ℚ) < d := by exact_mod_cast hd
  have hdiv : (n : ℚ) / d = (n / d : ℕ) + ((n % d : ℕ) : ℚ) / d := by
    have h := Nat.div_add_mod n d
    have hq : (n : ℚ) = d * (n / d : ℕ) + (n % d : ℕ) := by exact_mod_cast h.symm
    rw [hq]
    field_simp
    ring
  have hr : ((n % d : ℕ) : ℚ) < d := by exact_mod_cast Nat.mod_lt n hd
  have hr0 : (0 : ℚ) ≤ ((n % d : ℕ) : ℚ) / d := by positivity
  have hr1 : ((n % d : ℕ) : ℚ) / d ≤ 1 := by
    rw [div_le_one hdq]; exact hr.le
  unfold F64.rne
  split_ifs with h1 h2 h3
  · have : ((n % d : ℕ) : ℚ) / d ≤ 1 / 2 := by
      rw [div_le_iff₀ hdq]
      have : (2 : ℚ) * (n % d : ℕ) < d := by exact_mod_cast h1
      linarith
    constructor <;> linarith
  · have : (1 : ℚ) / 2 ≤ ((n % d : ℕ) : ℚ) / d := by
      rw [le_div_iff₀ hdq]
      have : (d : ℚ) < 2 * (n % d : ℕ) := by exact_mod_cast h2
      linarith
    push_cast
    constructor <;> linarith
  · have h4 : 2 * (n % d) = d := by omega
    have : ((n % d : ℕ) : ℚ) / d = 1 / 2 := by
      rw [div_eq_iff (ne_of_gt hdq)]
      have : (2 : ℚ) * (n % d : ℕ) = d := by exact_mod_cast h4
      linarith
    constructor <;> linarith
  · have h4 : 2 * (n % d) = d := by omega
    have : ((n % d : ℕ) : ℚ) / d = 1 / 2 := by
      rw [div_eq_iff (ne_of_gt hdq)]
      have : (2 : ℚ) * (n % d : ℕ) = d := by exact_mod_cast h4
      linarith
    push_cast
    constructor <;> linarith

theorem F64.spacing_le (n d : Nat) (hd : 0 < d) (h : 2 ^ 52 * d ≤ n) :
    (2 : ℚ) ^ (F64.bits (n / d) - 53) * 2 ^ 52 ≤ (n : ℚ) / d := by
  have hQ : 2 ^ 52 ≤ n / d := (Nat.le_div_iff_mul_le hd).mpr h
  have hdq : (0 : ℚ) < d := by exact_mod_cast hd
  have hfloor : ((n / d : ℕ) : ℚ) ≤ (n : ℚ) / d := by
    rw [le_div_iff₀ hdq]
    exact_mod_cast Nat.div_mul_le_self n d
  have hnat : 2 ^ (F64.bits (n / d) - 53) * 2 ^ 52 ≤ n / d := by
    rcases Nat.eq_zero_or_pos (F64.bits (n / d) - 53) with h0 | h0
    · rw [h0, pow_zero, Nat.one_mul]; exact hQ
    · have hb := F64.two_pow_bits_le (n / d) (by
        have : 0 < 2 ^ 52 := by positivity
        omega)
      rw [← pow_add]
      rw [show F64.bits (n / d) - 53 + 52 = F64.bits (n / d) - 1 by omega]
      exact hb
  calc (2 : ℚ) ^ (F64.bits (n / d) - 53) * 2 ^ 52
      = ((2 ^ (F64.bits (n / d) - 53) * 2 ^ 52 : ℕ) : ℚ) := by push_cast; ring
    _ ≤ ((n / d : ℕ) : ℚ) := by exact_mod_cast hnat
    _ ≤ (n : ℚ) / d := hfloor

theorem F64.roundMag_bounds (n d : Nat) (hd : 0 < d) (h : 2 ^ 52 * d ≤ n) :
    (n : ℚ) / d * (1 - 1 / 2 ^ 53) ≤ F64.roundMag n d ∧
      (F64.roundMag n d : ℚ) ≤ (n : ℚ) / d * (1 + 1 / 2 ^ 53) := by
  have hsp := F64.spacing_le n d hd h
  unfold F64.roundMag
  generalize F64.bits (n / d) - 53 = s at hsp ⊢
  have hp : 0 < d * 2 ^ s := Nat.mul_pos hd (by positivity)
  obtain ⟨hlo, hhi⟩ := F64.rne_bounds n (d * 2 ^ s) hp
  have hdq : (0 : ℚ) < d := by exact_mod_cast hd
  have hsq : (0 : ℚ) < 2 ^ s := by positivity
  have hcast : (n : ℚ) / ((d * 2 ^ s : ℕ) : ℚ) = (n : ℚ) / d / 2 ^ s := by
    push_cast
    rw [div_div]
  rw [hcast] at hlo hhi
  have hscale : (n : ℚ) / d / 2 ^ s * 2 ^ s = (n : ℚ) / d := by
    field_simp
    ring
  have hu : (2 : ℚ) ^ s * (1 / 2) ≤ (n : ℚ) / d * (1 / 2 ^ 53) := by
    have h53 : (2 : ℚ) ^ 53 = 2 ^ 52 * 2 := by norm_num
    rw [h53]
    have : (2 : ℚ) ^ s * 2 ^ 52 * (1 / (2 ^ 52 * 2)) ≤ (n : ℚ) / d * (1 / (2 ^ 52 * 2)) :=
      mul_le_mul_of_nonneg_right hsp (by positivity)
    calc (2 : ℚ) ^ s * (1 / 2) = 2 ^ s * 2 ^ 52 * (1 / (2 ^ 52 * 2)) := by
          field_simp
          ring
      _ ≤ (n : ℚ) / d * (1 / (2 ^ 52 * 2)) := this
  push_cast
  constructor
  · have := mul_le_mul_of_nonneg_right hlo hsq.le
    nlinarith
  · have := mul_le_mul_of_nonneg_right hhi hsq.le
    nlinarith

theorem Ieee.improve_core (a b S q D Sm G u : ℚ) (hu0 : 0 ≤ u) (hu1 : u ≤ 1) (ha : 0 < a)
    (hb : 0 < b) (hS : 0 < S) (hq : q = b * S / a) (hD : q * (1 - u) ≤ D)
    (hSm : (a + D) * (1 - u) ≤ Sm) (hG : Sm / 2 * (1 - u) ≤ G) :
    b / S * (1 - u) ^ 6 ≤ (G / S) ^ 2 := by
  have hv : 0 ≤ 1 - u := by linarith
  have hq0 : 0 < q := by rw [hq]; positivity
  have haq : a * q = b * S := by rw [hq]; field_simp
  have hT : b * S ≤ ((a + q) / 2) ^ 2 := by
    rw [← haq]
    nlinarith [sq_nonneg (a - q)]
  have h1 : (a + q) * (1 - u) ≤ a + D := by nlinarith
  have h2 : (a + q) * (1 - u) ^ 2 ≤ Sm := by
    calc (a + q) * (1 - u) ^ 2 = (a + q) * (1 - u) * (1 - u) := by ring
      _ ≤ (a + D) * (1 - u) := mul_le_mul_of_nonneg_right h1 hv
      _ ≤ Sm := hSm
  have h3 : (a + q) / 2 * (1 - u) ^ 3 ≤ G := by
    calc (a + q) / 2 * (1 - u) ^ 3 = (a + q) * (1 - u) ^ 2 / 2 * (1 - u) := by ring
      _ ≤ Sm / 2 * (1 - u) := by
          apply mul_le_mul_of_nonneg_right _ hv
          linarith
      _ ≤ G := hG
  have h4 : 0 ≤ (a + q) / 2 * (1 - u) ^ 3 := by positivity
  have h5 : ((a + q) / 2 * (1 - u) ^ 3) ^ 2 ≤ G ^ 2 := pow_le_pow_left₀ h4 h3 2
  have h6 : b * S * (1 - u) ^ 6 ≤ G ^ 2 := by
    calc b * S * (1 - u) ^ 6 ≤ ((a + q) / 2) ^ 2 * (1 - u) ^ 6 :=
          mul_le_mul_of_nonneg_right hT (by positivity)
      _ = ((a + q) / 2 * (1 - u) ^ 3) ^ 2 := by ring
      _ ≤ G ^ 2 := h5
  rw [div_pow, le_div_iff₀ (by positivity)]
  calc b / S * (1 - u) ^ 6 * S ^ 2 = b * S * (1 - u) ^ 6 := by field_simp; ring
    _ ≤ G ^ 2 := h6

theorem F64.mk_of_lt (s : Bool) (n d : Nat) (h : F64.roundMag n d < 2 ^ 2098) :
    F64.mk s n d = F64.fin s (F64.roundMag n d) := by
  unfold F64.mk
  rw [if_pos h]

theorem F64.ofRat_half : F64.ofRat 1 2 = F64.fin false (2 ^ 1073) := by decide

theorem F64.unit_roundoff :
    (0 : ℚ) ≤ 1 / 2 ^ 53 ∧ (1 : ℚ) / 2 ^ 53 ≤ 1 ∧ (1 : ℚ) + 1 / 2 ^ 53 ≤ 2 ∧
      (0 : ℚ) ≤ 1 + 1 / 2 ^ 53 ∧ (1 : ℚ) / 2 ≤ 1 - 1 / 2 ^ 53 := by
  norm_num

theorem F64.half_cancel (s p : ℚ) (hp : p ≠ 0) : s * p / (p * 2) = s / 2 := by
  field_simp
  ring

theorem F64.le_two_mul_of_le {x y B : ℚ} (hx : x ≤ y * (1 + 1 / 2 ^ 53)) (hy : y ≤ B)
    (hB : 0 ≤ B) : x ≤ B * 2 := by
  obtain ⟨_, _, h2, h3, _⟩ := F64.unit_roundoff
  exact le_trans hx (mul_le_mul hy h2 h3 hB)

theorem F64.nat_lt_of_le_pow {D k : Nat} (h : (D : ℚ) ≤ 2 ^ k) (hk : k < 2098) :
    D < 2 ^ 2098 := by
  have h1 : D ≤ 2 ^ k := by exact_mod_cast h
  exact lt_of_le_of_lt h1 (Nat.pow_lt_pow_right (by norm_num) hk)

theorem Ieee.improve_guess_lower (a b : Nat) (ha1 : 2 ^ 574 ≤ a) (ha2 : a ≤ 2 ^ 1574)
    (hb1 : 2 ^ 574 ≤ b) (hb2 : b ≤ 2 ^ 1574) :
    ∃ G, Ieee.improve_guess (F64.fin false a) (F64.fin false b) = F64.fin false G ∧
      (b : ℚ) / 2 ^ 1074 * (1 - 1 / 2 ^ 53) ^ 6 ≤ ((G : ℚ) / 2 ^ 1074) ^ 2 := by
  obtain ⟨hu0, hu1, _, _, hhalf⟩ := F64.unit_roundoff
  have ha0 : 0 < a := lt_of_lt_of_le (Nat.pos_pow_of_pos 574 (by norm_num)) ha1
  have hb0 : 0 < b := lt_of_lt_of_le (Nat.pos_pow_of_pos 574 (by norm_num)) hb1
  have haq0 : (0 : ℚ) < a := Nat.cast_pos.mpr ha0
  have hbq0 : (0 : ℚ) < b := Nat.cast_pos.mpr hb0
  have haq1 : (2 : ℚ) ^ 574 ≤ a := by exact_mod_cast ha1
  have haq2 : (a : ℚ) ≤ 2 ^ 1574 := by exact_mod_cast ha2
  have hbq2 : (b : ℚ) ≤ 2 ^ 1574 := by exact_mod_cast hb2
  have hpow : ∀ k : ℕ, (0 : ℚ) ≤ 2 ^ k := fun k => pow_nonneg (by norm_num) k
  have hpowlt : ∀ k : ℕ, (0 : ℚ) < 2 ^ k := fun k => pow_pos (by norm_num) k
  have hmono : ∀ {i j : ℕ}, i ≤ j → (2 : ℚ) ^ i ≤ 2 ^ j :=
    fun {i j} h => pow_le_pow_right₀ (by norm_num) h
  -- the quotient
  have c1 : 2 ^ 52 * a ≤ b * 2 ^ 1074 := by
    calc 2 ^ 52 * a ≤ 2 ^ 52 * 2 ^ 1574 := Nat.mul_le_mul_left _ ha2
      _ = 2 ^ 1626 := by rw [← pow_add]
      _ ≤ 2 ^ 1648 := Nat.pow_le_pow_right (by norm_num) (by norm_num)
      _ = 2 ^ 574 * 2 ^ 1074 := by rw [← pow_add]
      _ ≤ b * 2 ^ 1074 := Nat.mul_le_mul_right _ hb1
  obtain ⟨hD1, hD2⟩ := F64.roundMag_bounds (b * 2 ^ 1074) a ha0 c1
  obtain ⟨D, hDdef⟩ : ∃ D, F64.roundMag (b * 2 ^ 1074) a = D := ⟨_, rfl⟩
  have hqcast : ((b * 2 ^ 1074 : ℕ) : ℚ) / a = (b : ℚ) * 2 ^ 1074 / a := by
    rw [Nat.cast_mul, Nat.cast_pow, Nat.cast_ofNat]
  rw [hqcast, hDdef] at hD1 hD2
  have hq_le : (b : ℚ) * 2 ^ 1074 / a ≤ 2 ^ 2074 := by
    rw [div_le_iff₀ haq0]
    calc (b : ℚ) * 2 ^ 1074 ≤ 2 ^ 1574 * 2 ^ 1074 :=
          mul_le_mul_of_nonneg_right hbq2 (hpow _)
      _ = 2 ^ 2074 * 2 ^ 574 := by rw [← pow_add, ← pow_add]
      _ ≤ 2 ^ 2074 * a := mul_le_mul_of_nonneg_left haq1 (hpow _)
  have hDq : (D : ℚ) ≤ 2 ^ 2075 := by
    rw [pow_succ 2 2074]
    exact F64.le_two_mul_of_le hD2 hq_le (hpow _)
  have hDlt : D < 2 ^ 2098 := F64.nat_lt_of_le_pow hDq (by norm_num)
  have hD0 : (0 : ℚ) ≤ D := Nat.cast_nonneg D
  -- the sum
  have c3 : 2 ^ 52 * 1 ≤ a + D := by
    calc 2 ^ 52 * 1 ≤ 2 ^ 574 := by
          rw [Nat.mul_one]; exact Nat.pow_le_pow_right (by norm_num) (by norm_num)
      _ ≤ a := ha1
      _ ≤ a + D := Nat.le_add_right _ _
  obtain ⟨hS1, hS2⟩ := F64.roundMag_bounds (a + D) 1 Nat.one_pos c3
  obtain ⟨Sm, hSdef⟩ : ∃ Sm, F64.roundMag (a + D) 1 = Sm := ⟨_, rfl⟩
  have hscast : ((a + D : ℕ) : ℚ) / ((1 : ℕ) : ℚ) = (a : ℚ) + D := by
    rw [Nat.cast_add, Nat.cast_one, div_one]
  rw [hscast, hSdef] at hS1 hS2
  have hsum_le : (a : ℚ) + D ≤ 2 ^ 2076 := by
    have h1 : (a : ℚ) ≤ 2 ^ 2075 := le_trans haq2 (hmono (by norm_num))
    calc (a : ℚ) + D ≤ 2 ^ 2075 + 2 ^ 2075 := add_le_add h1 hDq
      _ = 2 ^ 2076 := by rw [pow_succ 2 2075, mul_two]
  have hsum_ge : (2 : ℚ) ^ 574 ≤ (a : ℚ) + D := le_trans haq1 (le_add_of_nonneg_right hD0)
  have hSq : (Sm : ℚ) ≤ 2 ^ 2077 := by
    rw [pow_succ 2 2076]
    exact F64.le_two_mul_of_le hS2 hsum_le (hpow _)
  have hSlt : Sm < 2 ^ 2098 := F64.nat_lt_of_le_pow hSq (by norm_num)
  have hSge : (2 : ℚ) ^ 53 ≤ Sm := by
    calc (2 : ℚ) ^ 53 ≤ 2 ^ 573 := hmono (by norm_num)
      _ = 2 ^ 574 * (1 / 2) := by rw [pow_succ 2 573, mul_assoc, mul_one_div_cancel two_ne_zero,
          mul_one]
      _ ≤ ((a : ℚ) + D) * (1 - 1 / 2 ^ 53) :=
          mul_le_mul hsum_ge hhalf (by norm_num) (le_trans (hpow _) hsum_ge)
      _ ≤ Sm := hS1
  -- the product with 0.5
  have c5 : 2 ^ 52 * 2 ^ 1074 ≤ Sm * 2 ^ 1073 := by
    have hSn : 2 ^ 53 ≤ Sm := by exact_mod_cast hSge
    calc 2 ^ 52 * 2 ^ 1074 = 2 ^ 53 * 2 ^ 1073 := by rw [← pow_add, ← pow_add]
      _ ≤ Sm * 2 ^ 1073 := Nat.mul_le_mul_right _ hSn
  obtain ⟨hG1, hG2⟩ := F64.roundMag_bounds (Sm * 2 ^ 1073) (2 ^ 1074)
    (Nat.pos_pow_of_pos 1074 (by norm_num)) c5
  obtain ⟨G, hGdef⟩ : ∃ G, F64.roundMag (Sm * 2 ^ 1073) (2 ^ 1074) = G := ⟨_, rfl⟩
  have hgcast : ((Sm * 2 ^ 1073 : ℕ) : ℚ) / ((2 ^ 1074 : ℕ) : ℚ) = (Sm : ℚ) / 2 := by
    rw [Nat.cast_mul, Nat.cast_pow, Nat.cast_pow, Nat.cast_ofNat, pow_succ 2 1073]
    exact F64.half_cancel _ _ (ne_of_gt (hpowlt _))
  rw [hgcast, hGdef] at hG1 hG2
  have hGlt : G < 2 ^ 2098 := by
    have hS0 : (0 : ℚ) ≤ (Sm : ℚ) / 2 := div_nonneg (Nat.cast_nonneg Sm) (by norm_num)
    have h1 : (G : ℚ) ≤ (Sm : ℚ) / 2 * 2 := F64.le_two_mul_of_le hG2 (le_refl _) hS0
    rw [div_mul_cancel₀ _ (two_ne_zero)] at h1
    exact F64.nat_lt_of_le_pow (le_trans h1 hSq) (by norm_num)
  refine ⟨G, ?_, ?_⟩
  · unfold Ieee.improve_guess
    rw [F64.div_def, F64.add_def, F64.mul_def, F64.ofRat_half]
    simp only [F64.div, if_neg (Nat.pos_iff_ne_zero.mp ha0), Bool.xor_false]
    rw [F64.mk_of_lt false _ _ (by rw [hDdef]; exact hDlt), hDdef]
    simp only [F64.add, if_true]
    rw [F64.mk_of_lt false _ _ (by rw [hSdef]; exact hSlt), hSdef]
    simp only [F64.mul, Bool.xor_false]
    rw [F64.mk_of_lt false _ _ (by rw [hGdef]; exact hGlt), hGdef]
  · exact Ieee.improve_core a b (2 ^ 1074) ((b : ℚ) * 2 ^ 1074 / a) D Sm G (1 / 2 ^ 53) hu0 hu1
      haq0 hbq0 (hpowlt _) rfl hD1 hS1 hG1

theorem F64.toRat_fin (m : Nat) : F64.toRat (F64.fin false m) = (m : ℚ) / 2 ^ 1074 := by
  simp [F64.toRat, F64.sval]

end Sicp
